import Mathlib

/-!
# RollerCoasters: track-curve sampling, frame construction, picking and dragging

A shallow embedding of `src/TrainView.cpp`.

* C++ `float`/`double` values are idealised as elements of an arbitrary linear
  ordered field `K` (exact arithmetic); every definition is computable and can
  be run at `K = ℚ`.  The one exception is the subtraction `t -= size` of the
  wrap loop of `getPnt3f`, whose rounding decides whether and where the loop
  ends: it is the parameter `fsub`, and `f32sub` is the binary32 subtraction
  (round to nearest, ties to even) over `ℚ`.
* `Pnt3f` (declared in `Utilities/Pnt3f.H`, which is not part of the sources at
  hand) is modelled from the specification's description of the vector
  primitive; the square root used by `normalize` is a parameter `sqrt`.
* Reference (output) parameters become explicit state: `getPnt3f` receives the
  previous contents of `pos`, `dir`, `up` and returns the new contents.
* The unbounded `while` loop of `getPnt3f` is run with fuel; `none` means the
  fuel ran out before the loop finished.
-/

namespace RollerCoasters

/-! ## Vector primitive -/

/-- Modelled from the spec: the 3D point/vector type `Pnt3f`
(`Utilities/Pnt3f.H` is absent), with the fields `x`, `y`, `z` the source reads. -/
structure Pnt3f (K : Type) where
  x : K
  y : K
  z : K
deriving DecidableEq, Repr

namespace Pnt3f

variable {K : Type}

/-- Modelled from the spec: the default constructor of `Pnt3f`
(`Utilities/Pnt3f.H` is absent).  The spec's numeric contract, blending is
`sum_k G[k] * weight[k]`, makes the default-constructed `Pnt3f temp` of
`Matrix_Multiple` the zero vector. -/
def zero [Zero K] : Pnt3f K := ⟨0, 0, 0⟩

/-- Modelled from the spec: `add` of the vector primitive (`operator+` of
`Utilities/Pnt3f.H`, absent), componentwise. -/
def add [Add K] (a b : Pnt3f K) : Pnt3f K := ⟨a.x + b.x, a.y + b.y, a.z + b.z⟩

/-- Modelled from the spec: `subtract` of the vector primitive (`operator-` of
`Utilities/Pnt3f.H`, absent), componentwise. -/
def sub [Sub K] (a b : Pnt3f K) : Pnt3f K := ⟨a.x - b.x, a.y - b.y, a.z - b.z⟩

/-- Modelled from the spec: `scale(scalar)` of the vector primitive, written
`p * s` in the source (`operator*(float)` of `Utilities/Pnt3f.H`, absent). -/
def scale [Mul K] (a : Pnt3f K) (s : K) : Pnt3f K := ⟨a.x * s, a.y * s, a.z * s⟩

/-- Modelled from the spec: `scale(scalar)` with the scalar on the left, written
`s * p` in the source (`operator*(float, Pnt3f)` of `Utilities/Pnt3f.H`, absent). -/
def lscale [Mul K] (s : K) (a : Pnt3f K) : Pnt3f K := ⟨s * a.x, s * a.y, s * a.z⟩

/-- Modelled from the spec: `cross(a, b)`, right-handed, written `a * b` in the
source (`operator*(Pnt3f)` of `Utilities/Pnt3f.H`, absent). -/
def cross [Mul K] [Sub K] (a b : Pnt3f K) : Pnt3f K :=
  ⟨a.y * b.z - a.z * b.y, a.z * b.x - a.x * b.z, a.x * b.y - a.y * b.x⟩

/-- Modelled from the spec: `dot` of the vector primitive
(`Utilities/Pnt3f.H` is absent). -/
def dot [Mul K] [Add K] (a b : Pnt3f K) : K := a.x * b.x + a.y * b.y + a.z * b.z

/-- Modelled from the spec: `normalize` of the vector primitive
(`Pnt3f::normalize` of `Utilities/Pnt3f.H`, absent): divide by the length;
when the length is 0 the (zero) vector is left as it is.  The square root is
the parameter `sqrt`. -/
def normalize [Field K] [DecidableEq K] (sqrt : K → K) (a : Pnt3f K) : Pnt3f K :=
  let l := sqrt (a.x * a.x + a.y * a.y + a.z * a.z)
  if l = 0 then a else ⟨a.x / l, a.y / l, a.z / l⟩

end Pnt3f

/-! ## `Matrix_Multiple` -/

/-- The inner loop `for j: result[i] += matrix[i][j] * T_var[j]` of
`Matrix_Multiple`, started from `result[i] = 0`. -/
def Matrix_Multiple_row {K : Type} [Field K] (matrix : Fin 4 → Fin 4 → K)
    (T_var : Fin 4 → K) (i : Fin 4) : K :=
  ([0, 1, 2, 3] : List (Fin 4)).foldl (fun acc j => acc + matrix i j * T_var j) 0

/-- `Pnt3f Matrix_Multiple(const float matrix[4][4], const float T_var[4], Pnt3f* g, float r)`:
`result[i] = Σ_j matrix[i][j] * T_var[j]`, then `temp = temp + g[i] * result[i]`
for `i = 0..3` from the zero vector, and the result is `temp * r`. -/
def Matrix_Multiple {K : Type} [Field K] (matrix : Fin 4 → Fin 4 → K)
    (T_var : Fin 4 → K) (g : Fin 4 → Pnt3f K) (r : K) : Pnt3f K :=
  let result : Fin 4 → K := fun i => Matrix_Multiple_row matrix T_var i
  let temp := ([0, 1, 2, 3] : List (Fin 4)).foldl
    (fun temp i => Pnt3f.add temp (Pnt3f.scale (g i) (result i))) Pnt3f.zero
  Pnt3f.scale temp r

/-- The `M_matrix` of the Cardinal branch of `getPnt3f`, row by row as written. -/
def M_matrix_cardinal {K : Type} [Field K] : Fin 4 → Fin 4 → K :=
  ![![-1, 2, -1, 0],
    ![3, -5, 0, 2],
    ![-3, 4, 1, 0],
    ![1, -1, 0, 0]]

/-- The `M_matrix` of the B-spline branch of `getPnt3f`, row by row as written. -/
def M_matrix_bspline {K : Type} [Field K] : Fin 4 → Fin 4 → K :=
  ![![-1, 3, -3, 1],
    ![3, -6, 0, 4],
    ![-3, 3, 3, 1],
    ![1, 0, 0, 0]]

/-- The claimed blend of C1, from the spec's words: `r * Σ_k G[k] * weight[k]`
with `weight[k] = Σ_j T[j] * M[j][k]` (row vector `T` times `M`). -/
def blend_rowT_M {K : Type} [Field K] (M : Fin 4 → Fin 4 → K)
    (T : Fin 4 → K) (G : Fin 4 → Pnt3f K) (r : K) : Pnt3f K :=
  let weight : Fin 4 → K := fun k => ∑ j : Fin 4, T j * M j k
  ⟨r * ∑ k : Fin 4, (G k).x * weight k,
   r * ∑ k : Fin 4, (G k).y * weight k,
   r * ∑ k : Fin 4, (G k).z * weight k⟩

/-! ## Binary32 arithmetic (`float`) -/

/-- The finite values of the C++ type `float` (IEEE 754 binary32): an integer
of magnitude below `2^24` times a power of two with exponent in `[-149, 104]`. -/
def IsF32 {K : Type} [LinearOrderedField K] (q : K) : Prop :=
  ∃ m z : Int, |m| < 2 ^ 24 ∧ -149 ≤ z ∧ z ≤ 104 ∧ q = (m : K) * (2 : K) ^ z

/-- Rounding to the nearest integer, a tie going to the even neighbour. -/
def roundTiesEven (q : ℚ) : Int :=
  let n := ⌊q⌋
  let r := q - (n : ℚ)
  if r < 1 / 2 then n else if 1 / 2 < r then n + 1 else if n % 2 = 0 then n else n + 1

/-- Rounding of an exact result to binary32, round to nearest and ties to even:
24 significant bits, the unit in the last place never below `2^-149`
(overflow to infinity is left out: the results here are not larger than the
operands). -/
def f32round (q : ℚ) : ℚ :=
  if q = 0 then 0
  else
    let e := max (Int.log 2 |q|) (-126)
    let ulp := (2 : ℚ) ^ (e - 23)
    (roundTiesEven (q / ulp) : ℚ) * ulp

/-- The `float` subtraction `x - y`: the exact difference rounded to binary32. -/
def f32sub (x y : ℚ) : ℚ := f32round (x - y)

/-- The `float` addition `x + y`: the exact sum rounded to binary32. -/
def f32add (x y : ℚ) : ℚ := f32round (x + y)

/-! ## Control points and `getPnt3f` -/

/-- Modelled from the spec: a control point of the track (its class is declared
in an absent header), with the fields `pos` and `orient` that `TrainView.cpp`
reads and writes. -/
structure ControlPoint (K : Type) where
  pos : Pnt3f K
  orient : Pnt3f K
deriving DecidableEq, Repr

/-- The three reference parameters `pos`, `dir`, `up` of `getPnt3f`. -/
structure Sample (K : Type) where
  pos : Pnt3f K
  dir : Pnt3f K
  up : Pnt3f K
deriving DecidableEq, Repr

/-- The vector access `m_pTrack->points[i]`.  In C++ an index past the end is
undefined; every index `getPnt3f` uses is below `points.size()`, so the
default value is never read there. -/
def pointAt {K : Type} [Zero K] (points : List (ControlPoint K)) (i : Nat) : ControlPoint K :=
  points.getD i ⟨Pnt3f.zero, Pnt3f.zero⟩

section Sampler

variable {K : Type} [LinearOrderedField K]

/-- The loop `while (t >= m_pTrack->points.size()) t -= m_pTrack->points.size();`
at the top of `getPnt3f`, run for at most `fuel` tests of the condition;
`none` when the fuel is used up before the condition fails.  `fsub` is the
`float` subtraction performed by `t -= ...`. -/
def wrapLoop (fsub : K → K → K) (size : Nat) : Nat → K → Option K
  | 0, _ => none
  | fuel + 1, t =>
    if (size : K) ≤ t then wrapLoop fsub size fuel (fsub t (size : K)) else some t

/-- The loop of the branch `splineBrowser->selected(1)` (Linear), from index `i`
with `n` iterations left: the first `i` with `t >= i && t < i + 1` writes
`pos`, `dir`, `up` and leaves the loop (`break`). -/
def linearLoop (sqrt : K → K) (points : List (ControlPoint K)) (t : K) (out : Sample K) :
    Nat → Nat → Sample K
  | 0, _ => out
  | n + 1, i =>
    if (i : K) ≤ t ∧ t < ((i + 1 : Nat) : K) then
      let t := t - (i : K)
      let size := points.length
      let pos := Pnt3f.add (Pnt3f.lscale t (pointAt points ((i + 1) % size)).pos)
        (Pnt3f.lscale (1 - t) (pointAt points i).pos)
      let dir := Pnt3f.normalize sqrt
        (Pnt3f.sub (pointAt points ((i + 1) % size)).pos (pointAt points i).pos)
      let up := Pnt3f.normalize sqrt
        (Pnt3f.add (Pnt3f.lscale t (pointAt points ((i + 1) % size)).orient)
          (Pnt3f.lscale (1 - t) (pointAt points i).orient))
      ⟨pos, dir, up⟩
    else linearLoop sqrt points t out n (i + 1)

/-- One iteration, at index `i`, of the loop of the branch
`splineBrowser->selected(2)` (Cardinal).  The state is the local `t` together
with the outputs; a matching iteration overwrites `t` by `t - i`. -/
def cardinalStep (sqrt : K → K) (points : List (ControlPoint K)) (i : Nat)
    (st : K × Sample K) : K × Sample K :=
  if (i : K) ≤ st.1 ∧ st.1 < ((i + 1 : Nat) : K) then
    let t := st.1 - (i : K)
    let T : Fin 4 → K := ![t * t * t, t * t, t, 1]
    let DT : Fin 4 → K := ![3 * t * t, 2 * t, 1, 0]
    let size := points.length
    let G0 := if i = 0 then (pointAt points (size - 1)).pos else (pointAt points (i - 1)).pos
    let G : Fin 4 → Pnt3f K :=
      ![G0, (pointAt points (i % size)).pos, (pointAt points ((i + 1) % size)).pos,
        (pointAt points ((i + 2) % size)).pos]
    let pos := Matrix_Multiple M_matrix_cardinal T G (1 / 2)
    let dir := Pnt3f.normalize sqrt (Matrix_Multiple M_matrix_cardinal DT G (1 / 2))
    let G' : Fin 4 → Pnt3f K :=
      ![(pointAt points i).orient, (pointAt points ((i + 1) % size)).orient,
        (pointAt points ((i + 2) % size)).orient, (pointAt points ((i + 3) % size)).orient]
    let up := Pnt3f.normalize sqrt (Matrix_Multiple M_matrix_cardinal T G' (1 / 2))
    (t, ⟨pos, dir, up⟩)
  else st

/-- One iteration, at index `i`, of the loop of the branch
`splineBrowser->selected(3)` (cubic B-spline). -/
def bsplineStep (sqrt : K → K) (points : List (ControlPoint K)) (i : Nat)
    (st : K × Sample K) : K × Sample K :=
  if (i : K) ≤ st.1 ∧ st.1 < ((i + 1 : Nat) : K) then
    let t := st.1 - (i : K)
    let T : Fin 4 → K := ![t * t * t, t * t, t, 1]
    let DT : Fin 4 → K := ![3 * t * t, 2 * t, 1, 0]
    let size := points.length
    let G0 := if i = 0 then (pointAt points (size - 1)).pos else (pointAt points (i - 1)).pos
    let G : Fin 4 → Pnt3f K :=
      ![G0, (pointAt points (i % size)).pos, (pointAt points ((i + 1) % size)).pos,
        (pointAt points ((i + 2) % size)).pos]
    let pos := Matrix_Multiple M_matrix_bspline T G (1 / 6)
    let dir := Pnt3f.normalize sqrt (Matrix_Multiple M_matrix_bspline DT G (1 / 6))
    let G0' :=
      if i = 0 then (pointAt points (size - 1)).orient else (pointAt points (i - 1)).orient
    let G' : Fin 4 → Pnt3f K :=
      ![G0', (pointAt points ((i + 1) % size)).orient,
        (pointAt points ((i + 2) % size)).orient, (pointAt points ((i + 3) % size)).orient]
    let up := Pnt3f.normalize sqrt (Matrix_Multiple M_matrix_bspline T G' (1 / 6))
    (t, ⟨pos, dir, up⟩)
  else st

/-- A `for (int i = ...; i < size; i++)` loop without `break` (the two spline
branches), from index `i` with `n` iterations left. -/
def splineLoop (step : Nat → K × Sample K → K × Sample K) :
    Nat → Nat → K × Sample K → K × Sample K
  | 0, _, st => st
  | n + 1, i, st => splineLoop step n (i + 1) (step i st)

/-- `void TrainView::getPnt3f(float t, Pnt3f& pos, Pnt3f& dir, Pnt3f& up)`.
`selected n` is `tw->splineBrowser->selected(n)`, `out` is what the three
reference parameters hold on entry, and the result is what they hold on return
(`none`: the `while` loop did not finish within `fuel` tests).  `fsub` is the
`float` subtraction of the `while` loop; inside a matching iteration
`i <= t < i + 1` holds and `t -= i` is exact. -/
def getPnt3f (sqrt : K → K) (fsub : K → K → K) (selected : Nat → Bool)
    (points : List (ControlPoint K)) (fuel : Nat) (t : K) (out : Sample K) :
    Option (Sample K) :=
  match wrapLoop fsub points.length fuel t with
  | none => none
  | some t =>
    if selected 1 then
      some (linearLoop sqrt points t out points.length 0)
    else if selected 2 then
      some (splineLoop (cardinalStep sqrt points) points.length 0 (t, out)).2
    else if selected 3 then
      some (splineLoop (bsplineStep sqrt points) points.length 0 (t, out)).2
    else
      some out

/-- The value the Cardinal branch of `getPnt3f` assigns to `pos` for the segment
index `i` and the local parameter `t` (the `t` left by `t -= i`):
`Matrix_Multiple(M_matrix, T, G, 0.5)` with `T = {t*t*t, t*t, t, 1}` and the
window `G` filled as in the source, `i == 0` taking `G[0]` from the last point. -/
def cardinalPos (points : List (ControlPoint K)) (i : Nat) (t : K) : Pnt3f K :=
  let T : Fin 4 → K := ![t * t * t, t * t, t, 1]
  let size := points.length
  let G0 := if i = 0 then (pointAt points (size - 1)).pos else (pointAt points (i - 1)).pos
  let G : Fin 4 → Pnt3f K :=
    ![G0, (pointAt points (i % size)).pos, (pointAt points ((i + 1) % size)).pos,
      (pointAt points ((i + 2) % size)).pos]
  Matrix_Multiple M_matrix_cardinal T G (1 / 2)

end Sampler

/-- The 4-point square track of the spec's scenarios: points
`(0,0,0),(10,0,0),(10,0,10),(0,0,10)`, every orientation `(0,1,0)`. -/
def squareTrack : List (ControlPoint ℚ) :=
  [⟨⟨0, 0, 0⟩, ⟨0, 1, 0⟩⟩, ⟨⟨10, 0, 0⟩, ⟨0, 1, 0⟩⟩, ⟨⟨10, 0, 10⟩, ⟨0, 1, 0⟩⟩,
   ⟨⟨0, 0, 10⟩, ⟨0, 1, 0⟩⟩]

/-- A 3-point track: `(0,0,0),(10,0,0),(10,0,10)`, every orientation `(0,1,0)`. -/
def triangleTrack : List (ControlPoint ℚ) :=
  [⟨⟨0, 0, 0⟩, ⟨0, 1, 0⟩⟩, ⟨⟨10, 0, 0⟩, ⟨0, 1, 0⟩⟩, ⟨⟨10, 0, 10⟩, ⟨0, 1, 0⟩⟩]

/-- The mode selectors: exactly line `n` of the browser is selected. -/
def selectedLine (n : Nat) : Nat → Bool := fun m => m == n

/-- Outputs holding zero vectors (default-constructed `Pnt3f` variables). -/
def zeroSample : Sample ℚ := ⟨Pnt3f.zero, Pnt3f.zero, Pnt3f.zero⟩

/-! ## Frame construction (`drawStuff`) -/

/-- The frame built in `drawStuff` for a cross-tie and for the train:
`Pnt3f u = dir; Pnt3f w = u * orient; w.normalize(); Pnt3f v = w * u; v.normalize();`
(`*` is the cross product).  The result lists `(u, v, w)`, the rows of the
rotation matrix. -/
def drawStuff_frame {K : Type} [Field K] [DecidableEq K] (sqrt : K → K)
    (dir orient : Pnt3f K) : Pnt3f K × Pnt3f K × Pnt3f K :=
  let u := dir
  let w := Pnt3f.normalize sqrt (Pnt3f.cross u orient)
  let v := Pnt3f.normalize sqrt (Pnt3f.cross w u)
  (u, v, w)

/-! ## Picking and dragging (`doPick`, `handle`) -/

/-- The end of `TrainView::doPick`: `hits` is the value of
`glRenderMode(GL_RENDER)` and `buf i` the content of `buf[i]` of the selection
buffer (`GLuint`).  `selectedCube = buf[3] - 1` is computed in 32-bit unsigned
arithmetic and stored into an `int`; with no hit `selectedCube = -1`. -/
def doPick (hits : Int) (buf : Nat → Nat) : Int :=
  if hits ≠ 0 then
    let u : Nat := (buf 3 % 2 ^ 32 + (2 ^ 32 - 1)) % 2 ^ 32
    if u < 2 ^ 31 then (u : Int) else (u : Int) - 2 ^ 32
  else
    -1

/-- The spec's words for C10, "the hit that is nearest the camera among all
overlapping hits": among the hit records `0..n` of the selection buffer (record
`k` is `buf[4k..4k+3]` = name count 1, minimal depth, maximal depth, name), the
number of a record of least minimal depth. -/
def nearestRecord (buf : Nat → Nat) : Nat → Nat
  | 0 => 0
  | n + 1 =>
    let b := nearestRecord buf n
    if buf (4 * (n + 1) + 1) < buf (4 * b + 1) then n + 1 else b

/-- The spec's words for C10: `-1` with no hit, otherwise the name of the
nearest hit record minus 1. -/
def pickNearest (hits : Int) (buf : Nat → Nat) : Int :=
  if hits ≠ 0 then (buf (4 * nearestRecord buf (hits.toNat - 1) + 3) : Int) - 1 else -1

/-- The FLTK events `TrainView::handle` switches on. -/
inductive Event where
  | FL_PUSH | FL_RELEASE | FL_DRAG | FL_FOCUS | FL_ENTER | FL_KEYBOARD | other
deriving DecidableEq, Repr

/-- FLTK's `FL_LEFT_MOUSE`. -/
def FL_LEFT_MOUSE : Int := 1

/-- The state `TrainView::handle` reads and writes: the static `last_push`,
the member `selectedCube` and the control points `m_pTrack->points`. -/
structure ViewState (K : Type) where
  last_push : Int
  selectedCube : Int
  points : List (ControlPoint K)

/-- What the external collaborators deliver during one call of `handle`:
whether the arcball took the event (`tw->worldCam->value() && arcball.handle(event)`),
`Fl::event_button()`, the outcome of GL picking in `doPick`, and the point
`(rx, ry, rz)` that `getMouseLine` and `mousePoleGo` compute from the old
position of the control point. -/
structure Inputs (K : Type) where
  arcballHandles : Bool
  event_button : Int
  hits : Int
  buf : Nat → Nat
  mousePoleGo : Pnt3f K → Pnt3f K

/-- `int TrainView::handle(int event)`, as a function on the state (the `int`
it returns and the redraw requests are left out).  `none` stands for the
undefined access `points[selectedCube]` with `selectedCube` past the end. -/
def handle {K : Type} (inp : Inputs K) (event : Event) (s : ViewState K) :
    Option (ViewState K) :=
  if inp.arcballHandles then some s
  else
    match event with
    | Event.FL_PUSH =>
      let s1 : ViewState K := ⟨inp.event_button, s.selectedCube, s.points⟩
      if s1.last_push = FL_LEFT_MOUSE then
        some ⟨s1.last_push, doPick inp.hits inp.buf, s1.points⟩
      else some s1
    | Event.FL_RELEASE => some ⟨0, s.selectedCube, s.points⟩
    | Event.FL_DRAG =>
      if s.last_push = FL_LEFT_MOUSE ∧ s.selectedCube ≥ 0 then
        match s.points.get? s.selectedCube.toNat with
        | none => none
        | some cp =>
          some ⟨s.last_push, s.selectedCube,
            s.points.set s.selectedCube.toNat ⟨inp.mousePoleGo cp.pos, cp.orient⟩⟩
      else some s
    | _ => some s

/-- A selection buffer with two hit records: name 1 at depth 900, then name 2
at depth 100 (nearer the camera). -/
def twoHits : Nat → Nat := fun i => ([1, 900, 950, 1, 1, 100, 150, 2] : List Nat).getD i 0

/-! ## Theorems -/

section WrapLemmas

variable {K : Type} [LinearOrderedField K]

theorem wrapLoop_fuel_mono (fsub : K → K → K) (size : Nat) (fuel : Nat) (k : Nat) (t t' : K)
    (h : wrapLoop fsub size fuel t = some t') : wrapLoop fsub size (fuel + k) t = some t' := by
  induction fuel generalizing t with
  | zero => simp [wrapLoop] at h
  | succ n ih =>
    have e : n + 1 + k = (n + k) + 1 := by omega
    rw [e]
    simp only [wrapLoop] at h ⊢
    split_ifs at h ⊢ with hc
    · exact ih _ h
    · exact h

theorem wrapLoop_fuel_le (fsub : K → K → K) (size : Nat) (fuel fuel' : Nat) (t t' : K)
    (hle : fuel ≤ fuel') (h : wrapLoop fsub size fuel t = some t') :
    wrapLoop fsub size fuel' t = some t' := by
  obtain ⟨k, rfl⟩ := Nat.exists_eq_add_of_le hle
  exact wrapLoop_fuel_mono fsub size fuel k t t' h

theorem wrapLoop_below (fsub : K → K → K) (size : Nat) (fuel : Nat) (t : K)
    (ht : t < (size : K)) : wrapLoop fsub size (fuel + 1) t = some t := by
  simp [wrapLoop, not_le.mpr ht]

theorem wrapLoop_below_le (fsub : K → K → K) (size : Nat) (fuel : Nat) (t : K)
    (ht : t < (size : K)) (hfuel : 1 ≤ fuel) : wrapLoop fsub size fuel t = some t := by
  obtain ⟨m, rfl⟩ := Nat.exists_eq_add_of_le hfuel
  rw [Nat.add_comm]; exact wrapLoop_below fsub size m t ht

/-- A loop that meets a value the subtraction does not change never ends. -/
theorem wrapLoop_stuck (fsub : K → K → K) (size : Nat) (t : K) (hge : (size : K) ≤ t)
    (hfix : fsub t (size : K) = t) : ∀ fuel : Nat, wrapLoop fsub size fuel t = none := by
  intro fuel
  induction fuel with
  | zero => rfl
  | succ n ih => rw [wrapLoop, if_pos hge, hfix, ih]

theorem exists_segment (m : Nat) (x : K) (h0 : 0 ≤ x) (h1 : x < (m : K)) :
    ∃ i : Nat, i < m ∧ (i : K) ≤ x ∧ x < (i : K) + 1 := by
  induction m with
  | zero => simp at h1; exact absurd h0 (not_le.mpr h1)
  | succ m ih =>
    by_cases hc : x < (m : K)
    · obtain ⟨i, hi, a, b⟩ := ih hc
      exact ⟨i, by omega, a, b⟩
    · refine ⟨m, by omega, not_lt.mp hc, ?_⟩
      push_cast at h1; exact h1

theorem IsF32_natCast_mul_zpow (m : Nat) (z : Int) (hm : m < 2 ^ 24) (hz1 : -149 ≤ z)
    (hz2 : z ≤ 104) : IsF32 ((m : K) * (2 : K) ^ z) := by
  refine ⟨(m : Int), z, ?_, hz1, hz2, by push_cast; rfl⟩
  rw [abs_of_nonneg (Int.natCast_nonneg m)]
  exact_mod_cast hm

/-- On a grid `2^z` on which the size is `n` steps, the wrap loop started at
`m` steps (`m ≤ 2^24`) subtracts exactly and ends at `m % n` steps. -/
theorem wrapLoop_grid (fsub : K → K → K)
    (hround : ∀ x y : K, IsF32 (x - y) → fsub x y = x - y)
    (size : Nat) (z : Int) (hz1 : -149 ≤ z) (hz2 : z ≤ 104) (n : Nat) (hn : 1 ≤ n)
    (hsize : (size : K) = (n : K) * (2 : K) ^ z) :
    ∀ m : Nat, m ≤ 2 ^ 24 → ∀ fuel : Nat, m / n + 1 ≤ fuel →
      wrapLoop fsub size fuel ((m : K) * (2 : K) ^ z) = some (((m % n : Nat) : K) * (2 : K) ^ z) := by
  have h2pos : (0 : K) < (2 : K) ^ z := zpow_pos (by norm_num) z
  intro m
  induction m using Nat.strong_induction_on with
  | _ m ih =>
    intro hm fuel hfuel
    have hf1 : 1 ≤ fuel := le_trans (Nat.le_add_left 1 _) hfuel
    obtain ⟨f, rfl⟩ : ∃ f, fuel = f + 1 := ⟨fuel - 1, by omega⟩
    by_cases hlt : m < n
    · rw [Nat.mod_eq_of_lt hlt]
      apply wrapLoop_below
      rw [hsize]
      exact mul_lt_mul_of_pos_right (by exact_mod_cast hlt) h2pos
    · have hge : n ≤ m := not_lt.mp hlt
      have hcond : (size : K) ≤ (m : K) * (2 : K) ^ z := by
        rw [hsize]
        exact mul_le_mul_of_nonneg_right (by exact_mod_cast hge) h2pos.le
      have hsub : (m : K) * (2 : K) ^ z - (size : K) = ((m - n : Nat) : K) * (2 : K) ^ z := by
        rw [hsize, Nat.cast_sub hge]; ring
      have hex : fsub ((m : K) * (2 : K) ^ z) (size : K) = ((m - n : Nat) : K) * (2 : K) ^ z := by
        rw [hround _ _ (by rw [hsub]; exact IsF32_natCast_mul_zpow (m - n) z (by omega) hz1 hz2),
          hsub]
      have hdiv : m / n = (m - n) / n + 1 := by
        rw [Nat.div_eq_sub_div (by omega) hge]
      have hmod : m % n = (m - n) % n := Nat.mod_eq_sub_mod hge
      rw [wrapLoop, if_pos hcond, hex, hmod]
      have hfu : (m - n) / n + 1 ≤ f := by
        rw [hdiv] at hfuel; omega
      exact ih (m - n) (by omega) (by omega) f hfu

theorem IsF32_nonneg_rep (t : K) (hf : IsF32 t) (h0 : 0 ≤ t) :
    ∃ (a : Nat) (z : Int), a < 2 ^ 24 ∧ -149 ≤ z ∧ z ≤ 104 ∧ t = (a : K) * (2 : K) ^ z := by
  obtain ⟨m, z, hm, hz1, hz2, rfl⟩ := hf
  have h2pos : (0 : K) < (2 : K) ^ z := zpow_pos (by norm_num) z
  have hm0 : 0 ≤ m := by
    by_contra hneg
    have : (m : K) < 0 := by exact_mod_cast (not_le.mp hneg)
    have := mul_neg_of_neg_of_pos this h2pos
    linarith
  obtain ⟨mn, rfl⟩ := Int.eq_ofNat_of_zero_le hm0
  refine ⟨mn, z, ?_, hz1, hz2, by push_cast; rfl⟩
  rw [abs_of_nonneg hm0] at hm; exact_mod_cast hm

theorem zpow_two_add_nat (z : Int) (k : Nat) :
    (2 : K) ^ (z + (k : Int)) = (2 : K) ^ k * (2 : K) ^ z := by
  rw [zpow_add₀ (by norm_num), zpow_natCast]; ring

/-- When `t >= 0` and `t + size` are both binary32 values, `t` and the size
lie on a common grid. -/
theorem exists_grid_pair (size : Nat) (hN : 1 ≤ size) (t : K) (hf : IsF32 t) (h0 : 0 ≤ t)
    (hf2 : IsF32 (t + (size : K))) :
    ∃ (z : Int) (n m : Nat), -149 ≤ z ∧ z ≤ 104 ∧ 1 ≤ n ∧
      (size : K) = (n : K) * (2 : K) ^ z ∧ m ≤ 2 ^ 24 ∧ t = (m : K) * (2 : K) ^ z := by
  have hs1 : (1 : K) ≤ (size : K) := by exact_mod_cast hN
  obtain ⟨a, z1, ha, hz1a, hz1b, hta⟩ := IsF32_nonneg_rep t hf h0
  obtain ⟨b, z2, hb, hz2a, hz2b, htb⟩ := IsF32_nonneg_rep (t + (size : K)) hf2 (by linarith)
  rcases le_or_lt z1 z2 with hle | hlt
  · obtain ⟨k, hk⟩ := Int.eq_ofNat_of_zero_le (sub_nonneg.mpr hle)
    have hz : z2 = z1 + (k : Int) := by omega
    have h2pos : (0 : K) < (2 : K) ^ z1 := zpow_pos (by norm_num) z1
    rw [hz, zpow_two_add_nat] at htb
    have hsz : (size : K) = ((b : K) * (2 : K) ^ k - (a : K)) * (2 : K) ^ z1 := by
      have : (size : K) = (t + (size : K)) - t := by ring
      rw [this, htb, hta]; ring
    have hpos : (0 : K) < (b : K) * (2 : K) ^ k - (a : K) := by
      by_contra hc
      have := mul_nonpos_of_nonpos_of_nonneg (not_lt.mp hc) h2pos.le
      rw [← hsz] at this; linarith
    have hlt' : a < b * 2 ^ k := by
      have : (a : K) < ((b * 2 ^ k : Nat) : K) := by push_cast; linarith
      exact_mod_cast this
    refine ⟨z1, b * 2 ^ k - a, a, hz1a, hz1b, by omega, ?_, ha.le, hta⟩
    rw [hsz, Nat.cast_sub hlt'.le]; push_cast; ring
  · obtain ⟨k, hk⟩ := Int.eq_ofNat_of_zero_le (sub_nonneg.mpr hlt.le)
    have hz : z1 = z2 + (k : Int) := by omega
    have h2pos : (0 : K) < (2 : K) ^ z2 := zpow_pos (by norm_num) z2
    rw [hz, zpow_two_add_nat] at hta
    have hsz : (size : K) = ((b : K) - (a : K) * (2 : K) ^ k) * (2 : K) ^ z2 := by
      have : (size : K) = (t + (size : K)) - t := by ring
      rw [this, htb, hta]; ring
    have hpos : (0 : K) < (b : K) - (a : K) * (2 : K) ^ k := by
      by_contra hc
      have := mul_nonpos_of_nonpos_of_nonneg (not_lt.mp hc) h2pos.le
      rw [← hsz] at this; linarith
    have hlt' : a * 2 ^ k < b := by
      have : ((a * 2 ^ k : Nat) : K) < (b : K) := by push_cast; linarith
      exact_mod_cast this
    refine ⟨z2, b - a * 2 ^ k, a * 2 ^ k, hz2a, hz2b, by omega, ?_, by omega, ?_⟩
    · rw [hsz, Nat.cast_sub hlt'.le]; push_cast; ring
    · rw [hta]; push_cast; ring

/-- A non-negative binary32 value below `2^24` and a size lie on a common grid. -/
theorem exists_grid (size : Nat) (hN : 1 ≤ size) (t : K) (hf : IsF32 t) (h0 : 0 ≤ t)
    (h1 : t < 2 ^ 24) :
    ∃ (z : Int) (n m : Nat), -149 ≤ z ∧ z ≤ 104 ∧ 1 ≤ n ∧
      (size : K) = (n : K) * (2 : K) ^ z ∧ m ≤ 2 ^ 24 ∧ t = (m : K) * (2 : K) ^ z := by
  obtain ⟨mn, z, hmn, hz1, hz2, rfl⟩ := IsF32_nonneg_rep t hf h0
  by_cases hz : z ≤ 0
  · obtain ⟨k, hk⟩ := Int.eq_ofNat_of_zero_le (neg_nonneg.mpr hz)
    refine ⟨z, size * 2 ^ k, mn, hz1, hz2, Nat.mul_pos hN (by positivity), ?_, hmn.le, rfl⟩
    have hzk : z = -(k : Int) := by omega
    rw [hzk, zpow_neg, zpow_natCast]
    push_cast
    field_simp
  · have hzpos : 0 < z := not_le.mp hz
    obtain ⟨k, hk⟩ := Int.eq_ofNat_of_zero_le hzpos.le
    subst hk
    refine ⟨0, size, mn * 2 ^ k, by norm_num, by norm_num, hN, by simp, ?_, ?_⟩
    · have : ((mn * 2 ^ k : Nat) : K) < 2 ^ 24 := by
        push_cast
        rw [zpow_natCast] at h1
        exact_mod_cast h1
      have : mn * 2 ^ k < 2 ^ 24 := by exact_mod_cast this
      omega
    · push_cast
      rw [zpow_natCast]
      simp

end WrapLemmas

section Float32Lemmas

theorem roundTiesEven_intCast (M : Int) : roundTiesEven (M : ℚ) = M := by
  simp [roundTiesEven]

theorem f32round_of_IsF32 (q : ℚ) (h : IsF32 q) : f32round q = q := by
  obtain ⟨m, z, hm, hz1, hz2, rfl⟩ := h
  by_cases h0 : (m : ℚ) * (2 : ℚ) ^ z = 0
  · simp [f32round, h0]
  · have hm0 : m ≠ 0 := by
      intro e; apply h0; simp [e]
    have h2pos : (0 : ℚ) < (2 : ℚ) ^ z := zpow_pos (by norm_num) z
    have habs : |(m : ℚ) * (2 : ℚ) ^ z| = (|m| : Int) * (2 : ℚ) ^ z := by
      rw [abs_mul, abs_of_pos h2pos]; push_cast; rfl
    have hqpos : 0 < |(m : ℚ) * (2 : ℚ) ^ z| := abs_pos.mpr h0
    have hlt : |(m : ℚ) * (2 : ℚ) ^ z| < ((2 : ℕ) : ℚ) ^ (24 + z) := by
      rw [habs, zpow_add₀ (by norm_num)]
      have : |(m : ℚ)| < 2 ^ 24 := by exact_mod_cast hm
      push_cast
      have h24 : ((2 : ℚ) ^ (24 : ℤ)) = 2 ^ 24 := by norm_num
      rw [h24]
      exact mul_lt_mul_of_pos_right this h2pos
    have hlog : Int.log 2 |(m : ℚ) * (2 : ℚ) ^ z| < 24 + z :=
      (Int.lt_zpow_iff_log_lt (by norm_num) hqpos).mp hlt
    have he : max (Int.log 2 |(m : ℚ) * (2 : ℚ) ^ z|) (-126) - 23 ≤ z := by
      have := max_le (a := Int.log 2 |(m : ℚ) * (2 : ℚ) ^ z|) (b := -126) (c := z + 23)
        (by omega) (by omega)
      omega
    obtain ⟨k, hk⟩ := Int.eq_ofNat_of_zero_le (sub_nonneg.mpr he)
    have hz : z = (max (Int.log 2 |(m : ℚ) * (2 : ℚ) ^ z|) (-126) - 23) + (k : ℤ) := by omega
    have hdiv : (m : ℚ) * (2 : ℚ) ^ z /
        (2 : ℚ) ^ (max (Int.log 2 |(m : ℚ) * (2 : ℚ) ^ z|) (-126) - 23) = ((m * 2 ^ k : Int) : ℚ) := by
      have hne : (2 : ℚ) ^ (max (Int.log 2 |(m : ℚ) * (2 : ℚ) ^ z|) (-126) - 23) ≠ 0 :=
        zpow_ne_zero _ (by norm_num)
      rw [div_eq_iff hne]
      conv_lhs => rw [hz]
      rw [zpow_add₀ (by norm_num), zpow_natCast]
      push_cast; ring
    simp only [f32round, if_neg h0]
    rw [hdiv, roundTiesEven_intCast]
    have hne : (2 : ℚ) ^ (max (Int.log 2 |(m : ℚ) * (2 : ℚ) ^ z|) (-126) - 23) ≠ 0 :=
      zpow_ne_zero _ (by norm_num)
    rw [← hdiv, div_mul_cancel₀ _ hne]

theorem f32sub_exact (x y : ℚ) (h : IsF32 (x - y)) : f32sub x y = x - y :=
  f32round_of_IsF32 _ h


theorem int_log_two_eq (q : ℚ) (e : Int) (hq : 0 < q) (h1 : (2 : ℚ) ^ e ≤ q)
    (h2 : q < (2 : ℚ) ^ (e + 1)) : Int.log 2 q = e := by
  have a : e ≤ Int.log 2 q :=
    (Int.zpow_le_iff_le_log (by norm_num) hq).mp (by exact_mod_cast h1)
  have b : Int.log 2 q < e + 1 :=
    (Int.lt_zpow_iff_log_lt (by norm_num) hq).mp (by exact_mod_cast h2)
  omega

theorem f32round_eval (q : ℚ) (e : Int) (hq : 0 < q) (h1 : (2 : ℚ) ^ e ≤ q)
    (h2 : q < (2 : ℚ) ^ (e + 1)) (he : -126 ≤ e) :
    f32round q = (roundTiesEven (q / (2 : ℚ) ^ (e - 23)) : ℚ) * (2 : ℚ) ^ (e - 23) := by
  have hl : Int.log 2 |q| = e := by
    rw [abs_of_pos hq]; exact int_log_two_eq q e hq h1 h2
  simp only [f32round, if_neg hq.ne', hl, max_eq_left he]

theorem roundTiesEven_near (q : ℚ) (n : Int) (h1 : (n : ℚ) - 1 / 2 < q)
    (h2 : q < (n : ℚ) + 1 / 2) : roundTiesEven q = n := by
  by_cases hc : (n : ℚ) ≤ q
  · have hf : ⌊q⌋ = n := Int.floor_eq_iff.mpr ⟨hc, by linarith⟩
    simp only [roundTiesEven, hf]
    rw [if_pos (by linarith)]
  · have hf : ⌊q⌋ = n - 1 := Int.floor_eq_iff.mpr ⟨by push_cast; linarith, by push_cast; linarith⟩
    simp only [roundTiesEven, hf]
    push_cast
    rw [if_neg (by linarith), if_pos (by linarith)]
    ring

theorem roundTiesEven_tie_even (q : ℚ) (n : Int) (hq : q = (n : ℚ) + 1 / 2) (hn : n % 2 = 0) :
    roundTiesEven q = n := by
  have hf : ⌊q⌋ = n := Int.floor_eq_iff.mpr ⟨by linarith, by linarith⟩
  simp only [roundTiesEven, hf]
  rw [if_neg (by linarith), if_neg (by linarith), if_pos hn]

theorem f32sub_billion : f32sub 1000000000 4 = 1000000000 := by
  have h := f32round_eval 999999996 29 (by norm_num) (by norm_num) (by norm_num) (by norm_num)
  have hr : roundTiesEven (999999996 / (2 : ℚ) ^ ((29 : Int) - 23)) = 15625000 :=
    roundTiesEven_near _ 15625000 (by norm_num) (by norm_num)
  rw [f32sub, show (1000000000 : ℚ) - 4 = 999999996 by norm_num, h, hr]
  norm_num

theorem f32sub_16777224 : f32sub 16777224 3 = 16777220 := by
  have h := f32round_eval 16777221 24 (by norm_num) (by norm_num) (by norm_num) (by norm_num)
  have hr : roundTiesEven (16777221 / (2 : ℚ) ^ ((24 : Int) - 23)) = 8388610 :=
    roundTiesEven_tie_even _ 8388610 (by norm_num) (by decide)
  rw [f32sub, show (16777224 : ℚ) - 3 = 16777221 by norm_num, h, hr]
  norm_num

theorem f32sub_16777220 : f32sub 16777220 3 = 16777216 := by
  have h := f32round_eval 16777217 24 (by norm_num) (by norm_num) (by norm_num) (by norm_num)
  have hr : roundTiesEven (16777217 / (2 : ℚ) ^ ((24 : Int) - 23)) = 8388608 :=
    roundTiesEven_tie_even _ 8388608 (by norm_num) (by decide)
  rw [f32sub, show (16777220 : ℚ) - 3 = 16777217 by norm_num, h, hr]
  norm_num

theorem IsF32_one : IsF32 (1 : ℚ) := ⟨1, 0, by norm_num, by norm_num, by norm_num, by norm_num⟩

end Float32Lemmas


section LoopLemmas

variable {K : Type} [LinearOrderedField K]

theorem Pnt3f.add_swap (a b : Pnt3f K) : Pnt3f.add a b = Pnt3f.add b a := by
  simp [Pnt3f.add, add_comm]

/-- In the Linear loop, when `i0 <= t < i0 + 1` and `i0` is among the indices
still to be visited, the loop stops at `i0` and writes that segment's sample. -/
theorem linearLoop_hit (sqrt : K → K) (points : List (ControlPoint K)) (t : K)
    (out : Sample K) (i0 : Nat) (h0 : (i0 : K) ≤ t) (h1 : t < (i0 : K) + 1) :
    ∀ n i, i ≤ i0 → i0 < i + n →
      linearLoop sqrt points t out n i =
        ⟨Pnt3f.add (Pnt3f.lscale (t - (i0 : K)) (pointAt points ((i0 + 1) % points.length)).pos)
            (Pnt3f.lscale (1 - (t - (i0 : K))) (pointAt points i0).pos),
          Pnt3f.normalize sqrt
            (Pnt3f.sub (pointAt points ((i0 + 1) % points.length)).pos (pointAt points i0).pos),
          Pnt3f.normalize sqrt
            (Pnt3f.add
              (Pnt3f.lscale (t - (i0 : K)) (pointAt points ((i0 + 1) % points.length)).orient)
              (Pnt3f.lscale (1 - (t - (i0 : K))) (pointAt points i0).orient))⟩ := by
  intro n
  induction n with
  | zero => intro i a b; omega
  | succ n ih =>
    intro i a b
    by_cases e : i = i0
    · subst e
      have h1' : t < ((i + 1 : Nat) : K) := by push_cast; exact h1
      rw [linearLoop, if_pos ⟨h0, h1'⟩]
    · have hlt : i + 1 ≤ i0 := by omega
      have hc : ¬ ((i : K) ≤ t ∧ t < ((i + 1 : Nat) : K)) := by
        intro hh
        have : ((i + 1 : Nat) : K) ≤ (i0 : K) := by exact_mod_cast hlt
        linarith [hh.2]
      rw [linearLoop, if_neg hc]
      exact ih (i + 1) hlt (by omega)

/-- A spline loop whose remaining indices all lie above `t` changes nothing. -/
theorem splineLoop_miss (step : Nat → K × Sample K → K × Sample K)
    (hstep : ∀ (j : Nat) (st : K × Sample K), ¬ ((j : K) ≤ st.1 ∧ st.1 < ((j + 1 : Nat) : K)) → step j st = st)
    (st : K × Sample K) :
    ∀ (n i : Nat), st.1 < (i : K) → splineLoop step n i st = st := by
  intro n
  induction n with
  | zero => intro i _; rfl
  | succ n ih =>
    intro i h
    have hc : ¬ ((i : K) ≤ st.1 ∧ st.1 < ((i + 1 : Nat) : K)) := by
      intro hh; linarith [hh.1]
    rw [splineLoop, hstep i st hc]
    apply ih
    have : (i : K) ≤ ((i + 1 : Nat) : K) := by push_cast; linarith
    linarith

/-- In a spline loop (no `break`), when `i0 <= t < i0 + 1` and `i0` is among the
indices still to be visited, exactly the iteration `i0` acts: the later ones see
the reduced `t - i0 < 1` and do not match. -/
theorem splineLoop_hit (step : Nat → K × Sample K → K × Sample K)
    (hstep : ∀ (j : Nat) (st : K × Sample K), ¬ ((j : K) ≤ st.1 ∧ st.1 < ((j + 1 : Nat) : K)) → step j st = st)
    (hfst : ∀ (j : Nat) (st : K × Sample K), ((j : K) ≤ st.1 ∧ st.1 < ((j + 1 : Nat) : K)) →
      (step j st).1 = st.1 - (j : K))
    (st : K × Sample K) (i0 : Nat) (h0 : (i0 : K) ≤ st.1) (h1 : st.1 < (i0 : K) + 1) :
    ∀ n i, i ≤ i0 → i0 < i + n → splineLoop step n i st = step i0 st := by
  intro n
  induction n with
  | zero => intro i a b; omega
  | succ n ih =>
    intro i a b
    by_cases e : i = i0
    · subst e
      have h1' : st.1 < ((i + 1 : Nat) : K) := by push_cast; exact h1
      rw [splineLoop]
      apply splineLoop_miss step hstep
      rw [hfst i st ⟨h0, h1'⟩]
      push_cast
      linarith
    · have hlt : i + 1 ≤ i0 := by omega
      have hc : ¬ ((i : K) ≤ st.1 ∧ st.1 < ((i + 1 : Nat) : K)) := by
        intro hh
        have : ((i + 1 : Nat) : K) ≤ (i0 : K) := by exact_mod_cast hlt
        linarith [hh.2]
      rw [splineLoop, hstep i st hc]
      exact ih (i + 1) hlt (by omega)

theorem cardinalStep_miss (sqrt : K → K) (points : List (ControlPoint K)) (j : Nat)
    (st : K × Sample K) (h : ¬ ((j : K) ≤ st.1 ∧ st.1 < ((j + 1 : Nat) : K))) :
    cardinalStep sqrt points j st = st := by
  rw [cardinalStep, if_neg h]

theorem cardinalStep_fst (sqrt : K → K) (points : List (ControlPoint K)) (j : Nat)
    (st : K × Sample K) (h : (j : K) ≤ st.1 ∧ st.1 < ((j + 1 : Nat) : K)) :
    (cardinalStep sqrt points j st).1 = st.1 - (j : K) := by
  rw [cardinalStep, if_pos h]

theorem bsplineStep_miss (sqrt : K → K) (points : List (ControlPoint K)) (j : Nat)
    (st : K × Sample K) (h : ¬ ((j : K) ≤ st.1 ∧ st.1 < ((j + 1 : Nat) : K))) :
    bsplineStep sqrt points j st = st := by
  rw [bsplineStep, if_neg h]

theorem bsplineStep_fst (sqrt : K → K) (points : List (ControlPoint K)) (j : Nat)
    (st : K × Sample K) (h : (j : K) ≤ st.1 ∧ st.1 < ((j + 1 : Nat) : K)) :
    (bsplineStep sqrt points j st).1 = st.1 - (j : K) := by
  rw [bsplineStep, if_pos h]

theorem pred_mod_size (size i : Nat) (hi : i < size) :
    (i + size - 1) % size = if i = 0 then size - 1 else i - 1 := by
  split_ifs with h
  · subst h; simp
  · have : i + size - 1 = (i - 1) + size := by omega
    rw [this, Nat.add_mod_right]; exact Nat.mod_eq_of_lt (by omega)

theorem sqrt_hundred_rat : Rat.sqrt 100 = 10 := by
  rw [show (100 : ℚ) = 10 * 10 by norm_num, Rat.sqrt_eq]; norm_num

theorem sqrt_one_rat : Rat.sqrt 1 = 1 := by
  rw [show (1 : ℚ) = 1 * 1 by norm_num, Rat.sqrt_eq]; norm_num

end LoopLemmas

section FrameLemmas

theorem sum_sq_pos {K : Type} [LinearOrderedField K] (x y z : K)
    (h : ¬ (x = 0 ∧ y = 0 ∧ z = 0)) : 0 < x * x + y * y + z * z := by
  by_contra hle
  have hx := mul_self_nonneg x
  have hy := mul_self_nonneg y
  have hz := mul_self_nonneg z
  have h0 : x * x + y * y + z * z = 0 := le_antisymm (not_lt.mp hle) (by linarith)
  have ex : x * x = 0 := by linarith
  have ey : y * y = 0 := by linarith
  have ez : z * z = 0 := by linarith
  exact h ⟨mul_self_eq_zero.mp ex, mul_self_eq_zero.mp ey, mul_self_eq_zero.mp ez⟩

theorem sqrt_one_of_exact {K : Type} [LinearOrderedField K] (sqrt : K → K)
    (hsqrt : ∀ x : K, 0 ≤ x → 0 ≤ sqrt x ∧ sqrt x * sqrt x = x) : sqrt 1 = 1 := by
  obtain ⟨h10, h11⟩ := hsqrt 1 zero_le_one
  have : (sqrt 1 - 1) * (sqrt 1 + 1) = 0 := by ring_nf; rw [sq]; linarith
  rcases mul_eq_zero.mp this with h | h
  · linarith
  · linarith

theorem frame_unit_v {K : Type} [Field K] (a b c x y z l : K) (hl : l ≠ 0)
    (hunit : a * a + b * b + c * c = 1) (horth : a * x + b * y + c * z = 0)
    (hll : l * l = x * x + y * y + z * z) :
    (y / l * c - z / l * b) * (y / l * c - z / l * b) +
      (z / l * a - x / l * c) * (z / l * a - x / l * c) +
      (x / l * b - y / l * a) * (x / l * b - y / l * a) = 1 := by
  field_simp
  linear_combination (x * x + y * y + z * z) * hunit
      - (a * x + b * y + c * z) * horth - hll

theorem frame_algebra {K : Type} [Field K] (a b c x y z l : K) (hl : l ≠ 0)
    (hunit : a * a + b * b + c * c = 1) (horth : a * x + b * y + c * z = 0)
    (hll : l * l = x * x + y * y + z * z) :
    x / l * (x / l) + y / l * (y / l) + z / l * (z / l) = 1 ∧
    a * (y / l * c - z / l * b) + b * (z / l * a - x / l * c) + c * (x / l * b - y / l * a) = 0 ∧
    a * (x / l) + b * (y / l) + c * (z / l) = 0 ∧
    (y / l * c - z / l * b) * (x / l) + (z / l * a - x / l * c) * (y / l)
      + (x / l * b - y / l * a) * (z / l) = 0 ∧
    b * (x / l * b - y / l * a) - c * (z / l * a - x / l * c) = x / l ∧
    c * (y / l * c - z / l * b) - a * (x / l * b - y / l * a) = y / l ∧
    a * (z / l * a - x / l * c) - b * (y / l * c - z / l * b) = z / l := by
  refine ⟨?_, ?_, ?_, ?_, ?_, ?_, ?_⟩
  · field_simp; linear_combination -hll
  · field_simp; ring
  · field_simp; linear_combination horth
  · field_simp; ring
  · field_simp
    linear_combination x * hunit - a * horth
  · field_simp
    linear_combination y * hunit - b * horth
  · field_simp
    linear_combination z * hunit - c * horth

end FrameLemmas

section BlendLemmas

/-- `Matrix_Multiple` written out as sums (shared by the blend theorems). -/
theorem Matrix_Multiple_eq_comp {K : Type} [Field K] (M : Fin 4 → Fin 4 → K)
    (T : Fin 4 → K) (G : Fin 4 → Pnt3f K) (r : K) :
    Matrix_Multiple M T G r =
      ⟨r * ∑ k : Fin 4, (G k).x * ∑ j : Fin 4, M k j * T j,
       r * ∑ k : Fin 4, (G k).y * ∑ j : Fin 4, M k j * T j,
       r * ∑ k : Fin 4, (G k).z * ∑ j : Fin 4, M k j * T j⟩ := by
  simp [Matrix_Multiple, Matrix_Multiple_row, Pnt3f.add,
    Pnt3f.scale, Pnt3f.zero, Fin.sum_univ_four]
  refine ⟨?_, ?_, ?_⟩ <;> ring

theorem hasDerivAt_cubic (a b c d f : ℝ) :
    HasDerivAt (fun x : ℝ => a * (x * x * x) + b * (x * x) + c * x + d)
      (a * (3 * f * f) + b * (2 * f) + c) f := by
  have h := ((((hasDerivAt_id f).pow 3).const_mul a).add
    (((hasDerivAt_id f).pow 2).const_mul b)).add ((hasDerivAt_id f).const_mul c)
  have h2 := h.add_const d
  convert h2 using 1
  · funext x; simp only [id, Pi.add_apply]; ring
  · simp only [id]; ring

end BlendLemmas

section SplineLemmas

variable {K : Type} [LinearOrderedField K]

/-- Iterations whose indices all lie at or below `t - 1` do not match. -/
theorem splineLoop_prefix (step : Nat → K × Sample K → K × Sample K)
    (hstep : ∀ (j : Nat) (st : K × Sample K), ¬ ((j : K) ≤ st.1 ∧ st.1 < ((j + 1 : Nat) : K)) →
      step j st = st)
    (st : K × Sample K) :
    ∀ (n i : Nat), ((i + n : Nat) : K) ≤ st.1 → splineLoop step n i st = st := by
  intro n
  induction n with
  | zero => intro i _; rfl
  | succ n ih =>
    intro i h
    have hle : ((i + 1 : Nat) : K) ≤ ((i + (n + 1) : Nat) : K) := by
      exact_mod_cast (by omega : i + 1 ≤ i + (n + 1))
    have hc : ¬ ((i : K) ≤ st.1 ∧ st.1 < ((i + 1 : Nat) : K)) := by
      intro hh; linarith [hh.2]
    rw [splineLoop, hstep i st hc]
    apply ih
    have e : i + 1 + n = i + (n + 1) := by omega
    rw [e]; exact h

/-- In a spline loop started at `(t, out)` with `i <= t < i + 1`, the state met
by iteration `j` passes the segment test exactly when `j = i`. -/
theorem splineLoop_match_iff (step : Nat → K × Sample K → K × Sample K)
    (hstep : ∀ (j : Nat) (st : K × Sample K), ¬ ((j : K) ≤ st.1 ∧ st.1 < ((j + 1 : Nat) : K)) →
      step j st = st)
    (hfst : ∀ (j : Nat) (st : K × Sample K), ((j : K) ≤ st.1 ∧ st.1 < ((j + 1 : Nat) : K)) →
      (step j st).1 = st.1 - (j : K))
    (st : K × Sample K) (i : Nat) (h0 : (i : K) ≤ st.1) (h1 : st.1 < (i : K) + 1) (j : Nat) :
    ((j : K) ≤ (splineLoop step j 0 st).1 ∧ (splineLoop step j 0 st).1 < ((j + 1 : Nat) : K))
      ↔ j = i := by
  have h1' : st.1 < ((i + 1 : Nat) : K) := by push_cast; exact h1
  rcases Nat.lt_trichotomy j i with hlt | heq | hgt
  · have hji : ((j + 1 : Nat) : K) ≤ (i : K) := by exact_mod_cast hlt
    have hpre : splineLoop step j 0 st = st := by
      apply splineLoop_prefix step hstep st j 0
      have : ((0 + j : Nat) : K) ≤ ((j + 1 : Nat) : K) := by
        exact_mod_cast (by omega : 0 + j ≤ j + 1)
      linarith
    rw [hpre]
    constructor
    · intro hh; linarith [hh.2]
    · intro e; omega
  · subst heq
    have hpre : splineLoop step j 0 st = st := by
      apply splineLoop_prefix step hstep st j 0
      simpa using h0
    rw [hpre]
    exact ⟨fun _ => rfl, fun _ => ⟨h0, h1'⟩⟩
  · have hhit : splineLoop step j 0 st = step i st :=
      splineLoop_hit step hstep hfst st i h0 h1 j 0 (Nat.zero_le i) (by omega)
    have hij : ((i + 1 : Nat) : K) ≤ (j : K) := by exact_mod_cast hgt
    rw [hhit, hfst i st ⟨h0, h1'⟩]
    constructor
    · intro hh; push_cast at hij; linarith [hh.1]
    · intro e; omega

/-- In Cardinal mode, for `i <= t < i + 1` and `i < N`, `getPnt3f` returns what
the single iteration `i` writes. -/
theorem getPnt3f_cardinal_eq (sqrt : K → K) (fsub : K → K → K)
    (selected : Nat → Bool)
    (points : List (ControlPoint K)) (t : K) (out : Sample K) (i : Nat)
    (hs1 : selected 1 = false) (hs2 : selected 2 = true) (hi : i < points.length)
    (h0 : (i : K) ≤ t) (h1 : t < (i : K) + 1) (fuel : Nat) (hfuel : 1 ≤ fuel) :
    getPnt3f sqrt fsub selected points fuel t out = some (cardinalStep sqrt points i (t, out)).2 := by
  have hlt : t < (points.length : K) := by
    have : ((i + 1 : Nat) : K) ≤ (points.length : K) := by exact_mod_cast hi
    push_cast at this; linarith
  have hw : wrapLoop fsub points.length fuel t = some t := by
    obtain ⟨m, rfl⟩ := Nat.exists_eq_add_of_le hfuel
    rw [Nat.add_comm]; exact wrapLoop_below fsub points.length m t hlt
  have hl := splineLoop_hit (cardinalStep sqrt points) (cardinalStep_miss sqrt points)
    (cardinalStep_fst sqrt points) (t, out) i h0 h1 points.length 0 (Nat.zero_le i) (by omega)
  rw [getPnt3f, hw]
  simp only [hs1, hs2, if_true, if_false, Bool.false_eq_true]
  rw [hl]

/-- In B-spline mode, for `i <= t < i + 1` and `i < N`, `getPnt3f` returns what
the single iteration `i` writes. -/
theorem getPnt3f_bspline_eq (sqrt : K → K) (fsub : K → K → K)
    (selected : Nat → Bool)
    (points : List (ControlPoint K)) (t : K) (out : Sample K) (i : Nat)
    (hs1 : selected 1 = false) (hs2 : selected 2 = false) (hs3 : selected 3 = true)
    (hi : i < points.length)
    (h0 : (i : K) ≤ t) (h1 : t < (i : K) + 1) (fuel : Nat) (hfuel : 1 ≤ fuel) :
    getPnt3f sqrt fsub selected points fuel t out = some (bsplineStep sqrt points i (t, out)).2 := by
  have hlt : t < (points.length : K) := by
    have : ((i + 1 : Nat) : K) ≤ (points.length : K) := by exact_mod_cast hi
    push_cast at this; linarith
  have hw : wrapLoop fsub points.length fuel t = some t := by
    obtain ⟨m, rfl⟩ := Nat.exists_eq_add_of_le hfuel
    rw [Nat.add_comm]; exact wrapLoop_below fsub points.length m t hlt
  have hl := splineLoop_hit (bsplineStep sqrt points) (bsplineStep_miss sqrt points)
    (bsplineStep_fst sqrt points) (t, out) i h0 h1 points.length 0 (Nat.zero_le i) (by omega)
  rw [getPnt3f, hw]
  simp only [hs1, hs2, hs3, if_true, if_false, Bool.false_eq_true]
  rw [hl]

/-- The `i == 0` special case of the spline windows is the modular index
`(i - 1) mod N`, for positions and orientations alike. -/
theorem pointAt_pred (points : List (ControlPoint K)) (i : Nat) (hi : i < points.length) :
    (if i = 0 then pointAt points (points.length - 1) else pointAt points (i - 1))
      = pointAt points ((i + points.length - 1) % points.length) := by
  rw [pred_mod_size points.length i hi]
  split_ifs <;> rfl

/-- A matching Cardinal iteration, with the windows written with modular indices. -/
theorem cardinalStep_hit (sqrt : K → K) (points : List (ControlPoint K)) (i : Nat)
    (st : K × Sample K) (hi : i < points.length)
    (hc : (i : K) ≤ st.1 ∧ st.1 < ((i + 1 : Nat) : K)) :
    cardinalStep sqrt points i st =
      (st.1 - (i : K),
        ⟨Matrix_Multiple M_matrix_cardinal
            ![(st.1 - (i : K)) * (st.1 - (i : K)) * (st.1 - (i : K)),
              (st.1 - (i : K)) * (st.1 - (i : K)), st.1 - (i : K), 1]
            ![(pointAt points ((i + points.length - 1) % points.length)).pos,
              (pointAt points i).pos, (pointAt points ((i + 1) % points.length)).pos,
              (pointAt points ((i + 2) % points.length)).pos] (1 / 2),
          Pnt3f.normalize sqrt (Matrix_Multiple M_matrix_cardinal
            ![3 * (st.1 - (i : K)) * (st.1 - (i : K)), 2 * (st.1 - (i : K)), 1, 0]
            ![(pointAt points ((i + points.length - 1) % points.length)).pos,
              (pointAt points i).pos, (pointAt points ((i + 1) % points.length)).pos,
              (pointAt points ((i + 2) % points.length)).pos] (1 / 2)),
          Pnt3f.normalize sqrt (Matrix_Multiple M_matrix_cardinal
            ![(st.1 - (i : K)) * (st.1 - (i : K)) * (st.1 - (i : K)),
              (st.1 - (i : K)) * (st.1 - (i : K)), st.1 - (i : K), 1]
            ![(pointAt points i).orient, (pointAt points ((i + 1) % points.length)).orient,
              (pointAt points ((i + 2) % points.length)).orient,
              (pointAt points ((i + 3) % points.length)).orient] (1 / 2))⟩) := by
  rw [cardinalStep, if_pos hc, ← pointAt_pred points i hi]
  simp only [Nat.mod_eq_of_lt hi]
  by_cases h : i = 0 <;> simp [h]

/-- A matching B-spline iteration, with the windows written with modular indices. -/
theorem bsplineStep_hit (sqrt : K → K) (points : List (ControlPoint K)) (i : Nat)
    (st : K × Sample K) (hi : i < points.length)
    (hc : (i : K) ≤ st.1 ∧ st.1 < ((i + 1 : Nat) : K)) :
    bsplineStep sqrt points i st =
      (st.1 - (i : K),
        ⟨Matrix_Multiple M_matrix_bspline
            ![(st.1 - (i : K)) * (st.1 - (i : K)) * (st.1 - (i : K)),
              (st.1 - (i : K)) * (st.1 - (i : K)), st.1 - (i : K), 1]
            ![(pointAt points ((i + points.length - 1) % points.length)).pos,
              (pointAt points i).pos, (pointAt points ((i + 1) % points.length)).pos,
              (pointAt points ((i + 2) % points.length)).pos] (1 / 6),
          Pnt3f.normalize sqrt (Matrix_Multiple M_matrix_bspline
            ![3 * (st.1 - (i : K)) * (st.1 - (i : K)), 2 * (st.1 - (i : K)), 1, 0]
            ![(pointAt points ((i + points.length - 1) % points.length)).pos,
              (pointAt points i).pos, (pointAt points ((i + 1) % points.length)).pos,
              (pointAt points ((i + 2) % points.length)).pos] (1 / 6)),
          Pnt3f.normalize sqrt (Matrix_Multiple M_matrix_bspline
            ![(st.1 - (i : K)) * (st.1 - (i : K)) * (st.1 - (i : K)),
              (st.1 - (i : K)) * (st.1 - (i : K)), st.1 - (i : K), 1]
            ![(pointAt points ((i + points.length - 1) % points.length)).orient,
              (pointAt points ((i + 1) % points.length)).orient,
              (pointAt points ((i + 2) % points.length)).orient,
              (pointAt points ((i + 3) % points.length)).orient] (1 / 6))⟩) := by
  rw [bsplineStep, if_pos hc, ← pointAt_pred points i hi]
  simp only [Nat.mod_eq_of_lt hi]
  by_cases h : i = 0 <;> simp [h]

/-- At local parameter 0 the Cardinal blend is the second window entry. -/
theorem cardinal_blend_zero (G : Fin 4 → Pnt3f K) :
    Matrix_Multiple M_matrix_cardinal ![(0 : K) * 0 * 0, 0 * 0, 0, 1] G (1 / 2) = G 1 := by
  calc Matrix_Multiple M_matrix_cardinal ![(0 : K) * 0 * 0, 0 * 0, 0, 1] G (1 / 2)
      = ⟨(G 1).x, (G 1).y, (G 1).z⟩ := by
        rw [Matrix_Multiple_eq_comp]
        simp [M_matrix_cardinal, Fin.sum_univ_four, Matrix.vecHead, Matrix.vecTail]
        refine ⟨?_, ?_, ?_⟩ <;> ring
    _ = G 1 := rfl

/-- At local parameter 1 the Cardinal blend is the third window entry. -/
theorem cardinal_blend_one (G : Fin 4 → Pnt3f K) :
    Matrix_Multiple M_matrix_cardinal ![(1 : K) * 1 * 1, 1 * 1, 1, 1] G (1 / 2) = G 2 := by
  calc Matrix_Multiple M_matrix_cardinal ![(1 : K) * 1 * 1, 1 * 1, 1, 1] G (1 / 2)
      = ⟨(G 2).x, (G 2).y, (G 2).z⟩ := by
        rw [Matrix_Multiple_eq_comp]
        simp [M_matrix_cardinal, Fin.sum_univ_four, Matrix.vecHead, Matrix.vecTail]
        refine ⟨?_, ?_, ?_⟩ <;> ring
    _ = G 2 := rfl

/-- The Linear loop changes nothing when `t` lies below every remaining index. -/
theorem linearLoop_miss (sqrt : K → K) (points : List (ControlPoint K)) (t : K)
    (out : Sample K) : ∀ (n i : Nat), t < (i : K) → linearLoop sqrt points t out n i = out := by
  intro n
  induction n with
  | zero => intro i _; rfl
  | succ n ih =>
    intro i h
    have hc : ¬ ((i : K) ≤ t ∧ t < ((i + 1 : Nat) : K)) := by
      intro hh; linarith [hh.1]
    rw [linearLoop, if_neg hc]
    apply ih
    push_cast; linarith

/-- For a negative `t` the wrap loop and every branch leave the outputs untouched. -/
theorem getPnt3f_negative (sqrt : K → K) (fsub : K → K → K) (selected : Nat → Bool)
    (points : List (ControlPoint K)) (t : K) (out : Sample K) (ht : t < 0)
    (fuel : Nat) (hfuel : 1 ≤ fuel) :
    getPnt3f sqrt fsub selected points fuel t out = some out := by
  have hlt : t < (points.length : K) := lt_of_lt_of_le ht (Nat.cast_nonneg _)
  have hw := wrapLoop_below_le fsub points.length fuel t hlt hfuel
  have h0 : t < ((0 : Nat) : K) := by simpa using ht
  have hl := linearLoop_miss sqrt points t out points.length 0 h0
  have hc := splineLoop_miss (cardinalStep sqrt points) (cardinalStep_miss sqrt points)
    (t, out) points.length 0 h0
  have hb := splineLoop_miss (bsplineStep sqrt points) (bsplineStep_miss sqrt points)
    (t, out) points.length 0 h0
  simp only [getPnt3f, hw, hl, hc, hb]
  split_ifs <;> rfl

end SplineLemmas

section LargeParameterLemmas

/-- On a grid of integers the binary32 wrap loop takes `2^24` down to `2^24 mod 3`. -/
theorem wrapLoop_pow24_three (f : Nat) (hf : 5592406 ≤ f) :
    wrapLoop f32sub 3 f (16777216 : ℚ) = some 1 := by
  have hg := wrapLoop_grid f32sub f32sub_exact 3 0 (by norm_num) (by norm_num) 3 (by norm_num)
    (by norm_num) 16777216 (by norm_num) f (by omega)
  have e : ((16777216 : Nat) : ℚ) * (2 : ℚ) ^ (0 : Int) = 16777216 := by norm_num
  rw [e] at hg
  rw [hg]; norm_num

/-- With binary32 subtraction and `N = 3`, `16777224` is wrapped through
`16777220` and `16777216` to `1`. -/
theorem wrapLoop_16777224 (f : Nat) (hf : 5592406 ≤ f) :
    wrapLoop f32sub 3 (f + 1 + 1) (16777224 : ℚ) = some 1 := by
  rw [wrapLoop, if_pos (by norm_num)]
  have h1 : f32sub 16777224 ((3 : Nat) : ℚ) = 16777220 := by
    simpa using f32sub_16777224
  rw [h1, wrapLoop, if_pos (by norm_num)]
  have h2 : f32sub 16777220 ((3 : Nat) : ℚ) = 16777216 := by
    simpa using f32sub_16777220
  rw [h2, wrapLoop_pow24_three f hf]

/-- Linear mode on the 3-point track: when the wrap loop ends at `1`, the
position written is `P[1]`. -/
theorem getPnt3f_triangle_wrap_one (f : Nat) (t : ℚ)
    (hw : wrapLoop f32sub 3 f t = some 1) :
    (getPnt3f Rat.sqrt f32sub (selectedLine 1) triangleTrack f t zeroSample).map Sample.pos
      = some ⟨10, 0, 0⟩ := by
  have hlen : triangleTrack.length = 3 := rfl
  have hl := linearLoop_hit Rat.sqrt triangleTrack (1 : ℚ) zeroSample 1 (by norm_num)
    (by norm_num) 3 0 (by omega) (by omega)
  rw [getPnt3f, hlen, hw]
  simp only [selectedLine, beq_self_eq_true, if_true, Option.map_some']
  rw [hl]
  simp [triangleTrack, pointAt, Pnt3f.add, Pnt3f.lscale]

/-- When the wrap loop does not end, `getPnt3f` does not return. -/
theorem getPnt3f_of_wrap_none {K : Type} [LinearOrderedField K] (sqrt : K → K)
    (fsub : K → K → K) (selected : Nat → Bool) (points : List (ControlPoint K)) (fuel : Nat)
    (t : K) (out : Sample K) (hw : wrapLoop fsub points.length fuel t = none) :
    getPnt3f sqrt fsub selected points fuel t out = none := by
  rw [getPnt3f, hw]

end LargeParameterLemmas

/-! ### C1 -/

/-- C1 (counterexample): with the Cardinal matrix and `r = 1/2`, and with the
B-spline matrix and `r = 1/6`, at `T = [1,1,1,1]` and a window whose only
non-zero point is `G[2] = (1,0,0)`, `Matrix_Multiple` differs from the blend
with `weight[k] = Σ_j T[j] * M[j][k]`. -/
theorem Matrix_Multiple_ne_rowT_M :
    Matrix_Multiple (M_matrix_cardinal (K := ℚ)) ![1, 1, 1, 1]
        ![⟨0, 0, 0⟩, ⟨0, 0, 0⟩, ⟨1, 0, 0⟩, ⟨0, 0, 0⟩] (1 / 2)
      ≠ blend_rowT_M (M_matrix_cardinal (K := ℚ)) ![1, 1, 1, 1]
        ![⟨0, 0, 0⟩, ⟨0, 0, 0⟩, ⟨1, 0, 0⟩, ⟨0, 0, 0⟩] (1 / 2)
    ∧ Matrix_Multiple (M_matrix_bspline (K := ℚ)) ![1, 1, 1, 1]
        ![⟨0, 0, 0⟩, ⟨0, 0, 0⟩, ⟨1, 0, 0⟩, ⟨0, 0, 0⟩] (1 / 6)
      ≠ blend_rowT_M (M_matrix_bspline (K := ℚ)) ![1, 1, 1, 1]
        ![⟨0, 0, 0⟩, ⟨0, 0, 0⟩, ⟨1, 0, 0⟩, ⟨0, 0, 0⟩] (1 / 6) := by
  constructor
  · simp [Matrix_Multiple, Matrix_Multiple_row, blend_rowT_M, M_matrix_cardinal, Pnt3f.add,
      Pnt3f.scale, Pnt3f.zero, Fin.sum_univ_four, Matrix.vecHead, Matrix.vecTail]
    norm_num
  · simp [Matrix_Multiple, Matrix_Multiple_row, blend_rowT_M, M_matrix_bspline, Pnt3f.add,
      Pnt3f.scale, Pnt3f.zero, Fin.sum_univ_four, Matrix.vecHead, Matrix.vecTail]
    norm_num

/-- C1 (amended): for every matrix `M`, vector `T`, window `G` and scale `r`,
`Matrix_Multiple M T G r` is `r * Σ_k G[k] * weight[k]` with
`weight[k] = Σ_j M[k][j] * T[j]`, the matrix applied to `T` as a column. -/
theorem Matrix_Multiple_eq_M_colT {K : Type} [Field K] (M : Fin 4 → Fin 4 → K)
    (T : Fin 4 → K) (G : Fin 4 → Pnt3f K) (r : K) :
    Matrix_Multiple M T G r =
      ⟨r * ∑ k : Fin 4, (G k).x * ∑ j : Fin 4, M k j * T j,
       r * ∑ k : Fin 4, (G k).y * ∑ j : Fin 4, M k j * T j,
       r * ∑ k : Fin 4, (G k).z * ∑ j : Fin 4, M k j * T j⟩ := by
  simp [Matrix_Multiple, Matrix_Multiple_row, Pnt3f.add,
    Pnt3f.scale, Pnt3f.zero, Fin.sum_univ_four]
  refine ⟨?_, ?_, ?_⟩ <;> ring

/-! ### C2 -/

/-- C2 (counterexample): in Cardinal mode on the square track (`N = 4`) with
zero-initialised outputs, `getPnt3f` at `t = -1/2` leaves the outputs untouched,
while at `t + N = 7/2` it writes the position `(-5/4, 0, 5)`.  And for the
`float` `t = 1 - 2^-24` the `float` sum `t + 4` is `5`, where `getPnt3f` gives
the position `(10, 0, 0)`, which is not the position at `t`. -/
theorem getPnt3f_not_periodic :
    getPnt3f Rat.sqrt f32sub (selectedLine 2) squareTrack 1 (-1 / 2) zeroSample
      = some zeroSample
    ∧ (getPnt3f Rat.sqrt f32sub (selectedLine 2) squareTrack 1 (-1 / 2 + 4) zeroSample).map
        Sample.pos = some ⟨-5 / 4, 0, 5⟩
    ∧ zeroSample.pos ≠ ⟨-5 / 4, 0, 5⟩
    ∧ f32add (16777215 / 16777216) 4 = 5
    ∧ (getPnt3f Rat.sqrt f32sub (selectedLine 2) squareTrack 2 5 zeroSample).map
        Sample.pos = some ⟨10, 0, 0⟩
    ∧ (getPnt3f Rat.sqrt f32sub (selectedLine 2) squareTrack 2 (16777215 / 16777216)
        zeroSample).map Sample.pos ≠ some ⟨10, 0, 0⟩ := by
  have hsub : f32sub 5 4 = 1 := by
    rw [f32sub_exact 5 4 (by norm_num; exact IsF32_one)]; norm_num
  refine ⟨?_, ?_, ?_, ?_, ?_, ?_⟩
  · simp [getPnt3f, wrapLoop, squareTrack, selectedLine, splineLoop, cardinalStep]
    norm_num
  · simp [getPnt3f, wrapLoop, squareTrack, selectedLine, splineLoop, cardinalStep]
    norm_num
    simp [Matrix_Multiple, Matrix_Multiple_row, M_matrix_cardinal, Pnt3f.add, Pnt3f.scale,
      Pnt3f.zero, pointAt, Matrix.vecHead, Matrix.vecTail]
    norm_num
  · simp [zeroSample, Pnt3f.zero]
  · have h := f32round_eval (16777215 / 16777216 + 4) 2 (by norm_num) (by norm_num)
      (by norm_num) (by norm_num)
    have hr : roundTiesEven ((16777215 / 16777216 + 4) / (2 : ℚ) ^ ((2 : Int) - 23))
        = 10485760 :=
      roundTiesEven_near _ 10485760 (by norm_num) (by norm_num)
    rw [f32add, h, hr]
    norm_num
  · simp [getPnt3f, wrapLoop, hsub, squareTrack, selectedLine, splineLoop, cardinalStep]
    norm_num
    simp [Matrix_Multiple, Matrix_Multiple_row, M_matrix_cardinal, Pnt3f.add, Pnt3f.scale,
      Pnt3f.zero, pointAt, Matrix.vecHead, Matrix.vecTail]
  · simp [getPnt3f, wrapLoop, squareTrack, selectedLine, splineLoop, cardinalStep]
    norm_num
    simp [Matrix_Multiple, Matrix_Multiple_row, M_matrix_cardinal, Pnt3f.add, Pnt3f.scale,
      Pnt3f.zero, pointAt, Matrix.vecHead, Matrix.vecTail]
    norm_num

/-- C2 (amended): with a `float` subtraction that returns every representable
difference exactly, in every mode (so in Cardinal and in cubic B-spline mode),
for every track with `N >= 1` points and every `t` such that either
`t + N < 0`, or `t >= 0` and both `t` and `t + N` are binary32 values:
`getPnt3f` returns at `t` and at `t + N` (given enough fuel for the `while`
loop) the same position, tangent and up. -/
theorem getPnt3f_periodic {K : Type} [LinearOrderedField K]
    (sqrt : K → K) (fsub : K → K → K) (selected : Nat → Bool)
    (points : List (ControlPoint K)) (t : K) (out : Sample K)
    (hround : ∀ x y : K, IsF32 (x - y) → fsub x y = x - y)
    (hN : 1 ≤ points.length)
    (ht : t + (points.length : K) < 0 ∨
      (0 ≤ t ∧ IsF32 t ∧ IsF32 (t + (points.length : K)))) :
    ∃ s fuel, ∀ fuel', fuel ≤ fuel' →
      getPnt3f sqrt fsub selected points fuel' t out = some s ∧
      getPnt3f sqrt fsub selected points fuel' (t + (points.length : K)) out = some s := by
  have hsz : (0 : K) ≤ (points.length : K) := Nat.cast_nonneg _
  rcases ht with hneg | ⟨h0, hf, hf2⟩
  · refine ⟨out, 1, fun fuel' h => ⟨?_, ?_⟩⟩
    · exact getPnt3f_negative sqrt fsub selected points t out (by linarith) fuel' h
    · exact getPnt3f_negative sqrt fsub selected points _ out hneg fuel' h
  · obtain ⟨z, n, m, hz1, hz2, hn, hsize, hm, htm⟩ :=
      exists_grid_pair points.length hN t hf h0 hf2
    obtain ⟨d, hd⟩ : ∃ d : Nat, d = m / n := ⟨_, rfl⟩
    have e1 : ∀ fuel', d + 1 ≤ fuel' →
        wrapLoop fsub points.length fuel' t = some (((m % n : Nat) : K) * (2 : K) ^ z) := by
      intro fuel' h
      rw [htm]
      exact wrapLoop_grid fsub hround points.length z hz1 hz2 n hn hsize m hm fuel'
        (by rw [← hd]; exact h)
    have e2 : ∀ fuel', d + 2 ≤ fuel' →
        wrapLoop fsub points.length fuel' (t + (points.length : K))
          = some (((m % n : Nat) : K) * (2 : K) ^ z) := by
      intro fuel' h
      obtain ⟨f, rfl⟩ : ∃ f, fuel' = f + 1 := ⟨fuel' - 1, by omega⟩
      have hstep : fsub (t + (points.length : K)) (points.length : K) = t := by
        rw [hround _ _ (by rw [add_sub_cancel_right]; exact hf), add_sub_cancel_right]
      rw [wrapLoop, if_pos (by linarith), hstep]
      exact e1 f (by omega)
    cases h1 : getPnt3f sqrt fsub selected points (d + 2) t out with
    | none => simp [getPnt3f, e1 (d + 2) (by omega)] at h1; split_ifs at h1
    | some s =>
      refine ⟨s, d + 2, fun fuel' h => ?_⟩
      simp only [getPnt3f, e1 (d + 2) (by omega)] at h1
      simp only [getPnt3f, e1 fuel' (by omega), e2 fuel' h]
      exact ⟨h1, h1⟩

/-- C2 (witness): the square track in Cardinal mode with binary32 subtraction,
at `t = 1/2` (where `t` and `t + 4 = 9/2` are binary32 values) and at `t = -5`
(where `t + 4 < 0`). -/
theorem getPnt3f_periodic_witness :
    (∃ s fuel, ∀ fuel', fuel ≤ fuel' →
      getPnt3f Rat.sqrt f32sub (selectedLine 2) squareTrack fuel' (1 / 2) zeroSample = some s ∧
      getPnt3f Rat.sqrt f32sub (selectedLine 2) squareTrack fuel'
        (1 / 2 + (squareTrack.length : ℚ)) zeroSample = some s) ∧
    (∃ s fuel, ∀ fuel', fuel ≤ fuel' →
      getPnt3f Rat.sqrt f32sub (selectedLine 2) squareTrack fuel' (-5) zeroSample = some s ∧
      getPnt3f Rat.sqrt f32sub (selectedLine 2) squareTrack fuel'
        (-5 + (squareTrack.length : ℚ)) zeroSample = some s) :=
  ⟨getPnt3f_periodic Rat.sqrt f32sub (selectedLine 2) squareTrack (1 / 2) zeroSample
      f32sub_exact (by decide)
      (Or.inr ⟨by norm_num, ⟨1, -1, by norm_num, by norm_num, by norm_num, by norm_num⟩,
        ⟨9, -1, by norm_num, by norm_num, by norm_num, by simp [squareTrack]; norm_num⟩⟩),
   getPnt3f_periodic Rat.sqrt f32sub (selectedLine 2) squareTrack (-5) zeroSample
      f32sub_exact (by decide) (Or.inl (by simp [squareTrack]; norm_num))⟩

/-! ### C3 -/

/-- C3 (counterexample): with `N = 4` the wrap loop leaves `t = -1` as it is,
outside `[0, N)`; and at `t = 1000000000` the `float` subtraction of 4 returns
`t` itself, so the loop does not end with any amount of fuel. -/
theorem wrapLoop_negative_unchanged :
    wrapLoop f32sub 4 1 (-1 : ℚ) = some (-1) ∧ ¬ ((0 : ℚ) ≤ -1) ∧
    f32sub 1000000000 4 = 1000000000 ∧
    ∀ fuel : Nat, wrapLoop f32sub 4 fuel 1000000000 = none := by
  refine ⟨?_, ?_, f32sub_billion, ?_⟩
  · simp [wrapLoop]; norm_num
  · norm_num
  · exact wrapLoop_stuck f32sub 4 1000000000 (by norm_num) (by simpa using f32sub_billion)

/-- C3 (amended): with a `float` subtraction that returns every representable
difference exactly, for every `N >= 1` and every binary32 value `t` with
`0 <= t < 2^24` the wrap loop finishes (for every sufficient fuel) with a value
`t'` such that `0 <= t' < N`, and some segment index `i < N` has
`i <= t' < i + 1`. -/
theorem wrapLoop_range {K : Type} [LinearOrderedField K] (fsub : K → K → K)
    (size : Nat) (t : K)
    (hround : ∀ x y : K, IsF32 (x - y) → fsub x y = x - y)
    (hN : 1 ≤ size) (hf : IsF32 t) (ht : 0 ≤ t) (ht2 : t < 2 ^ 24) :
    ∃ t' fuel, (∀ fuel', fuel ≤ fuel' → wrapLoop fsub size fuel' t = some t') ∧
      0 ≤ t' ∧ t' < (size : K) ∧ ∃ i : Nat, i < size ∧ (i : K) ≤ t' ∧ t' < (i : K) + 1 := by
  obtain ⟨z, n, m, hz1, hz2, hn, hsize, hm, htm⟩ := exists_grid size hN t hf ht ht2
  have h2pos : (0 : K) < (2 : K) ^ z := zpow_pos (by norm_num) z
  have b0 : (0 : K) ≤ ((m % n : Nat) : K) * (2 : K) ^ z :=
    mul_nonneg (Nat.cast_nonneg _) h2pos.le
  have b1 : ((m % n : Nat) : K) * (2 : K) ^ z < (size : K) := by
    rw [hsize]
    exact mul_lt_mul_of_pos_right (by exact_mod_cast Nat.mod_lt m (by omega)) h2pos
  refine ⟨((m % n : Nat) : K) * (2 : K) ^ z, m / n + 1, fun fuel' h => ?_, b0, b1,
    exists_segment size _ b0 b1⟩
  rw [htm]
  exact wrapLoop_grid fsub hround size z hz1 hz2 n hn hsize m hm fuel' h

/-- C3 (witness): binary32 subtraction, `N = 4`, `t = 9`. -/
theorem wrapLoop_range_witness :
    ∃ t' fuel, (∀ fuel', fuel ≤ fuel' → wrapLoop f32sub 4 fuel' (9 : ℚ) = some t') ∧
      0 ≤ t' ∧ t' < ((4 : Nat) : ℚ) ∧ ∃ i : Nat, i < 4 ∧ (i : ℚ) ≤ t' ∧ t' < (i : ℚ) + 1 :=
  wrapLoop_range f32sub 4 9 f32sub_exact (by decide)
    ⟨9, 0, by norm_num, by norm_num, by norm_num, by norm_num⟩ (by norm_num) (by norm_num)

/-! ### C4 -/

/-- C4 (counterexample): Linear mode with binary32 subtraction.  On the 3-point
track, `t = 0 + 5592408 * 3 = 16777224` is wrapped through `16777220` and
`16777216` (the differences `16777221` and `16777217` are not binary32 values)
to `1`, so the position returned is `P[1] = (10,0,0)`, not `P[0] = (0,0,0)`.
On the square track, `t = 0 + 250000000 * 4` never leaves the wrap loop. -/
theorem getPnt3f_large_knot_wrong :
    (∀ fuel : Nat, 5592408 ≤ fuel →
      (getPnt3f Rat.sqrt f32sub (selectedLine 1) triangleTrack fuel
        (((0 : Nat) : ℚ) + ((5592408 : Nat) : ℚ) * ((3 : Nat) : ℚ)) zeroSample).map Sample.pos
        = some ⟨10, 0, 0⟩) ∧
    (pointAt triangleTrack 0).pos = ⟨0, 0, 0⟩ ∧
    (∀ fuel : Nat, getPnt3f Rat.sqrt f32sub (selectedLine 1) squareTrack fuel
        (((0 : Nat) : ℚ) + ((250000000 : Nat) : ℚ) * ((4 : Nat) : ℚ)) zeroSample = none) := by
  refine ⟨?_, rfl, ?_⟩
  · intro fuel hfuel
    obtain ⟨f, rfl, hf⟩ : ∃ f, fuel = f + 1 + 1 ∧ 5592406 ≤ f :=
      ⟨fuel - 2, by omega, by omega⟩
    have ht : ((0 : Nat) : ℚ) + ((5592408 : Nat) : ℚ) * ((3 : Nat) : ℚ) = 16777224 := by
      norm_num
    rw [ht]
    exact getPnt3f_triangle_wrap_one _ _ (wrapLoop_16777224 f hf)
  · intro fuel
    have ht : ((0 : Nat) : ℚ) + ((250000000 : Nat) : ℚ) * ((4 : Nat) : ℚ) = 1000000000 := by
      norm_num
    rw [ht]
    apply getPnt3f_of_wrap_none
    exact wrapLoop_stuck f32sub 4 1000000000 (by norm_num) (by simpa using f32sub_billion) fuel

/-- C4 (amended): in Linear mode (`selected 1`), with a `float` subtraction that
returns every representable difference exactly, for every track, every knot
index `i < N` (so `N >= 1`) and every `k` with `i + k * N <= 2^24`, `getPnt3f`
at `t = i + k * N` returns (with fuel `k + 1` or more) the position `P[i]`
exactly. -/
theorem getPnt3f_linear_knot {K : Type} [LinearOrderedField K] (sqrt : K → K)
    (fsub : K → K → K) (selected : Nat → Bool) (points : List (ControlPoint K))
    (out : Sample K) (i k : Nat)
    (hround : ∀ x y : K, IsF32 (x - y) → fsub x y = x - y)
    (hsel : selected 1 = true) (hi : i < points.length)
    (hk : i + k * points.length ≤ 2 ^ 24) :
    ∃ s, (∀ fuel, k + 1 ≤ fuel →
        getPnt3f sqrt fsub selected points fuel
          ((i : K) + (k : K) * (points.length : K)) out = some s)
      ∧ s.pos = (pointAt points i).pos := by
  have hmod : (i + k * points.length) % points.length = i := by
    rw [Nat.add_mul_mod_self_right]; exact Nat.mod_eq_of_lt hi
  have hdiv : (i + k * points.length) / points.length = k := by
    rw [Nat.add_mul_div_right _ _ (by omega), Nat.div_eq_of_lt hi, Nat.zero_add]
  have hw : ∀ fuel, k + 1 ≤ fuel →
      wrapLoop fsub points.length fuel ((i : K) + (k : K) * (points.length : K))
        = some (i : K) := by
    intro fuel hfuel
    have hg := wrapLoop_grid fsub hround points.length 0 (by norm_num) (by norm_num)
      points.length (by omega) (by simp) (i + k * points.length) hk fuel
      (by rw [hdiv]; exact hfuel)
    rw [hmod] at hg
    simpa using hg
  have hl := linearLoop_hit sqrt points (i : K) out i le_rfl (by linarith)
    points.length 0 (Nat.zero_le i) (by omega)
  refine ⟨linearLoop sqrt points (i : K) out points.length 0, fun fuel hf => ?_, ?_⟩
  · rw [getPnt3f, hw fuel hf]
    simp only [hsel, if_true]
  · rw [hl]
    simp [Pnt3f.add, Pnt3f.lscale]

/-- C4 (witness): binary32 subtraction on the square track: `i = 0`, `k = 1`
(`t = 4` wraps to `0`, position `(0,0,0)`) and `i = 1`, `k = 1` (`t = 5` wraps
to `1`, position `(10,0,0)`). -/
theorem getPnt3f_linear_knot_witness :
    (∃ s, (∀ fuel, 1 + 1 ≤ fuel →
        getPnt3f Rat.sqrt f32sub (selectedLine 1) squareTrack fuel
          (((0 : Nat) : ℚ) + ((1 : Nat) : ℚ) * ((4 : Nat) : ℚ)) zeroSample = some s)
      ∧ s.pos = ⟨0, 0, 0⟩) ∧
    (∃ s, (∀ fuel, 1 + 1 ≤ fuel →
        getPnt3f Rat.sqrt f32sub (selectedLine 1) squareTrack fuel
          (((1 : Nat) : ℚ) + ((1 : Nat) : ℚ) * ((4 : Nat) : ℚ)) zeroSample = some s)
      ∧ s.pos = ⟨10, 0, 0⟩) :=
  ⟨getPnt3f_linear_knot Rat.sqrt f32sub (selectedLine 1) squareTrack zeroSample 0 1
      f32sub_exact rfl (by decide) (by decide),
   getPnt3f_linear_knot Rat.sqrt f32sub (selectedLine 1) squareTrack zeroSample 1 1
      f32sub_exact rfl (by decide) (by decide)⟩

/-! ### C5 -/

/-- C5: in Linear mode, for every track, every segment index `i < N` and every
`t` with `i <= t < i + 1` (so `t` in `[0, N)`, `i = floor t`, `f = t - i`),
`getPnt3f` returns position `(1-f)*P[i] + f*P[(i+1) mod N]`, tangent
`normalize(P[(i+1) mod N] - P[i])` (no `f` in it) and up
`normalize((1-f)*O[i] + f*O[(i+1) mod N])`. -/
theorem getPnt3f_linear_segment {K : Type} [LinearOrderedField K] (sqrt : K → K)
    (fsub : K → K → K) (selected : Nat → Bool) (points : List (ControlPoint K))
    (t : K) (out : Sample K) (i : Nat)
    (hsel : selected 1 = true) (hi : i < points.length)
    (h0 : (i : K) ≤ t) (h1 : t < (i : K) + 1) (fuel : Nat) (hfuel : 1 ≤ fuel) :
    getPnt3f sqrt fsub selected points fuel t out = some
      ⟨Pnt3f.add (Pnt3f.lscale (1 - (t - (i : K))) (pointAt points i).pos)
          (Pnt3f.lscale (t - (i : K)) (pointAt points ((i + 1) % points.length)).pos),
        Pnt3f.normalize sqrt
          (Pnt3f.sub (pointAt points ((i + 1) % points.length)).pos (pointAt points i).pos),
        Pnt3f.normalize sqrt
          (Pnt3f.add (Pnt3f.lscale (1 - (t - (i : K))) (pointAt points i).orient)
            (Pnt3f.lscale (t - (i : K)) (pointAt points ((i + 1) % points.length)).orient))⟩ := by
  have hlt : t < (points.length : K) := by
    have : ((i + 1 : Nat) : K) ≤ (points.length : K) := by exact_mod_cast hi
    push_cast at this; linarith
  have hw : wrapLoop fsub points.length fuel t = some t := by
    obtain ⟨m, rfl⟩ := Nat.exists_eq_add_of_le hfuel
    rw [Nat.add_comm]; exact wrapLoop_below fsub points.length m t hlt
  have hl := linearLoop_hit sqrt points t out i h0 h1 points.length 0 (Nat.zero_le i) (by omega)
  rw [getPnt3f, hw]
  simp only [hsel, if_true]
  rw [hl, Pnt3f.add_swap (Pnt3f.lscale (t - (i : K)) _),
    Pnt3f.add_swap (Pnt3f.lscale (t - (i : K)) _)]

/-- C5 (witness): the square track with orientations `(0,1,0)` at `t = 1/2`
gives position `(5,0,0)`, tangent `(1,0,0)` and up `(0,1,0)`. -/
theorem getPnt3f_linear_segment_witness :
    getPnt3f Rat.sqrt f32sub (selectedLine 1) squareTrack 1 (1 / 2) zeroSample =
      some ⟨⟨5, 0, 0⟩, ⟨1, 0, 0⟩, ⟨0, 1, 0⟩⟩ := by
  rw [getPnt3f_linear_segment Rat.sqrt f32sub (selectedLine 1) squareTrack (1 / 2) zeroSample 0 rfl
    (by decide) (by norm_num) (by norm_num) 1 le_rfl]
  simp [squareTrack, pointAt, Pnt3f.add, Pnt3f.sub, Pnt3f.lscale, Pnt3f.normalize,
    sqrt_hundred_rat, sqrt_one_rat]
  norm_num

/-! ### C6 -/

/-- C6: in cubic B-spline mode (`selected 3`, lines 1 and 2 not selected), for
every track and every knot `t = i` with `i < N` (so `N >= 1`, local parameter
`f = 0`), the returned position is `(1/6) * (1*G0 + 4*G1 + 1*G2 + 0*G3)` with
`G0 = P[(i-1) mod N]`, `G1 = P[i]`, `G2 = P[(i+1) mod N]`, `G3 = P[(i+2) mod N]`. -/
theorem getPnt3f_bspline_knot {K : Type} [LinearOrderedField K] (sqrt : K → K)
    (fsub : K → K → K) (selected : Nat → Bool) (points : List (ControlPoint K))
    (out : Sample K) (i : Nat)
    (hs1 : selected 1 = false) (hs2 : selected 2 = false) (hs3 : selected 3 = true)
    (hi : i < points.length) (fuel : Nat) (hfuel : 1 ≤ fuel) :
    ∃ s, getPnt3f sqrt fsub selected points fuel (i : K) out = some s ∧
      s.pos = Pnt3f.lscale (1 / 6)
        (Pnt3f.add (Pnt3f.add (Pnt3f.add
          (Pnt3f.lscale 1 (pointAt points ((i + points.length - 1) % points.length)).pos)
          (Pnt3f.lscale 4 (pointAt points i).pos))
          (Pnt3f.lscale 1 (pointAt points ((i + 1) % points.length)).pos))
          (Pnt3f.lscale 0 (pointAt points ((i + 2) % points.length)).pos)) := by
  have hw : wrapLoop fsub points.length fuel (i : K) = some (i : K) := by
    obtain ⟨m, rfl⟩ := Nat.exists_eq_add_of_le hfuel
    rw [Nat.add_comm]; exact wrapLoop_below fsub points.length m (i : K) (by exact_mod_cast hi)
  have hl := splineLoop_hit (bsplineStep sqrt points) (bsplineStep_miss sqrt points)
    (bsplineStep_fst sqrt points) ((i : K), out) i le_rfl (by simp)
    points.length 0 (Nat.zero_le i) (by omega)
  have hc : ((i : K) ≤ ((i : K), out).1 ∧ ((i : K), out).1 < ((i + 1 : Nat) : K)) := by
    constructor
    · exact le_rfl
    · push_cast; simp
  refine ⟨(splineLoop (bsplineStep sqrt points) points.length 0 ((i : K), out)).2, ?_, ?_⟩
  · rw [getPnt3f, hw]
    simp only [hs1, hs2, hs3, if_true, if_false, Bool.false_eq_true]
  · rw [hl, bsplineStep, if_pos hc, pred_mod_size points.length i hi]
    simp only [Nat.mod_eq_of_lt hi, sub_self]
    have hM : ∀ G : Fin 4 → Pnt3f K,
        Matrix_Multiple M_matrix_bspline ![(0 : K) * 0 * 0, 0 * 0, 0, 1] G (1 / 6) =
          Pnt3f.lscale (1 / 6) (Pnt3f.add (Pnt3f.add (Pnt3f.add
            (Pnt3f.lscale 1 (G 0)) (Pnt3f.lscale 4 (G 1))) (Pnt3f.lscale 1 (G 2)))
            (Pnt3f.lscale 0 (G 3))) := by
      intro G
      simp [Matrix_Multiple, Matrix_Multiple_row, M_matrix_bspline, Pnt3f.add, Pnt3f.scale,
        Pnt3f.lscale, Pnt3f.zero, Matrix.vecHead, Matrix.vecTail]
      refine ⟨?_, ?_, ?_⟩ <;> ring
    rw [hM]
    by_cases h0 : i = 0 <;> simp [h0]

/-- C6 (witness): the square track at `t = 0` in B-spline mode: the position
is `(1/6) * (P[3] + 4*P[0] + P[1]) = (5/3, 0, 5/3)`. -/
theorem getPnt3f_bspline_knot_witness :
    ∃ s, getPnt3f Rat.sqrt f32sub (selectedLine 3) squareTrack 1 ((0 : Nat) : ℚ) zeroSample = some s ∧
      s.pos = ⟨5 / 3, 0, 5 / 3⟩ := by
  obtain ⟨s, h, e⟩ := getPnt3f_bspline_knot Rat.sqrt f32sub (selectedLine 3) squareTrack zeroSample 0
    rfl rfl rfl (by decide) 1 le_rfl
  refine ⟨s, h, ?_⟩
  rw [e]
  simp [squareTrack, pointAt, Pnt3f.add, Pnt3f.lscale]
  norm_num

/-! ### C7 -/

/-- C7: with a square root that is exact on the non-negative scalars, for every
tangent of unit length (`dir · dir = 1`) and every up vector with
`dir × orient` non-zero, the frame `(u, v, w)` of `drawStuff` has `u = dir`,
`w` the vector `dir × orient` divided by its positive length, `v = w × u`, and
consists of three unit-length, pairwise orthogonal vectors with `u × v = w`. -/
theorem drawStuff_frame_orthonormal {K : Type} [LinearOrderedField K] (sqrt : K → K)
    (dir orient : Pnt3f K)
    (hsqrt : ∀ x : K, 0 ≤ x → 0 ≤ sqrt x ∧ sqrt x * sqrt x = x)
    (hunit : Pnt3f.dot dir dir = 1)
    (hnp : Pnt3f.cross dir orient ≠ Pnt3f.zero) :
    (drawStuff_frame sqrt dir orient).1 = dir ∧
    (∃ l : K, 0 < l ∧
      l * l = Pnt3f.dot (Pnt3f.cross dir orient) (Pnt3f.cross dir orient) ∧
      Pnt3f.scale (drawStuff_frame sqrt dir orient).2.2 l = Pnt3f.cross dir orient) ∧
    (drawStuff_frame sqrt dir orient).2.1 =
      Pnt3f.cross (drawStuff_frame sqrt dir orient).2.2 dir ∧
    Pnt3f.dot (drawStuff_frame sqrt dir orient).1 (drawStuff_frame sqrt dir orient).1 = 1 ∧
    Pnt3f.dot (drawStuff_frame sqrt dir orient).2.1 (drawStuff_frame sqrt dir orient).2.1 = 1 ∧
    Pnt3f.dot (drawStuff_frame sqrt dir orient).2.2 (drawStuff_frame sqrt dir orient).2.2 = 1 ∧
    Pnt3f.dot (drawStuff_frame sqrt dir orient).1 (drawStuff_frame sqrt dir orient).2.1 = 0 ∧
    Pnt3f.dot (drawStuff_frame sqrt dir orient).1 (drawStuff_frame sqrt dir orient).2.2 = 0 ∧
    Pnt3f.dot (drawStuff_frame sqrt dir orient).2.1 (drawStuff_frame sqrt dir orient).2.2 = 0 ∧
    Pnt3f.cross (drawStuff_frame sqrt dir orient).1 (drawStuff_frame sqrt dir orient).2.1 =
      (drawStuff_frame sqrt dir orient).2.2 := by
  obtain ⟨a, b, c⟩ := dir
  obtain ⟨p, q, r⟩ := orient
  simp only [Pnt3f.dot] at hunit
  have hne : ¬ (b * r - c * q = 0 ∧ c * p - a * r = 0 ∧ a * q - b * p = 0) := by
    intro h
    apply hnp
    simp only [Pnt3f.cross, Pnt3f.zero, Pnt3f.mk.injEq]
    exact h
  have hpos := sum_sq_pos _ _ _ hne
  obtain ⟨hl0, hll⟩ := hsqrt _ hpos.le
  have hlne : sqrt ((b * r - c * q) * (b * r - c * q) + (c * p - a * r) * (c * p - a * r)
      + (a * q - b * p) * (a * q - b * p)) ≠ 0 := by
    intro h; rw [h] at hll; simp at hll; linarith
  have hs1 := sqrt_one_of_exact sqrt hsqrt
  have horth : a * (b * r - c * q) + b * (c * p - a * r) + c * (a * q - b * p) = 0 := by ring
  have hn2 := frame_unit_v a b c _ _ _ _ hlne hunit horth hll
  obtain ⟨f1, f2, f3, f4, f5, f6, f7⟩ := frame_algebra a b c _ _ _ _ hlne hunit horth hll
  have hw : Pnt3f.normalize sqrt (Pnt3f.cross ⟨a, b, c⟩ ⟨p, q, r⟩) =
      ⟨(b * r - c * q) / sqrt ((b * r - c * q) * (b * r - c * q)
          + (c * p - a * r) * (c * p - a * r) + (a * q - b * p) * (a * q - b * p)),
       (c * p - a * r) / sqrt ((b * r - c * q) * (b * r - c * q)
          + (c * p - a * r) * (c * p - a * r) + (a * q - b * p) * (a * q - b * p)),
       (a * q - b * p) / sqrt ((b * r - c * q) * (b * r - c * q)
          + (c * p - a * r) * (c * p - a * r) + (a * q - b * p) * (a * q - b * p))⟩ := by
    simp only [Pnt3f.normalize, Pnt3f.cross]
    rw [if_neg hlne]
  refine ⟨rfl, ⟨_, lt_of_le_of_ne hl0 (Ne.symm hlne), ?_, ?_⟩, ?_, ?_⟩
  · simp only [Pnt3f.dot, Pnt3f.cross]
    exact hll
  · simp only [drawStuff_frame, hw]
    simp only [Pnt3f.scale, Pnt3f.cross, Pnt3f.mk.injEq]
    exact ⟨div_mul_cancel₀ _ hlne, div_mul_cancel₀ _ hlne, div_mul_cancel₀ _ hlne⟩
  · simp only [drawStuff_frame, hw]
    simp only [Pnt3f.normalize, Pnt3f.cross]
    rw [hn2, hs1, if_neg one_ne_zero]
    simp only [div_one]
  · simp only [drawStuff_frame, hw]
    simp only [Pnt3f.normalize, Pnt3f.cross, Pnt3f.dot]
    rw [hn2, hs1, if_neg one_ne_zero]
    simp only [div_one, Pnt3f.mk.injEq]
    exact ⟨hunit, hn2, f1, f2, f3, f4, f5, f6, f7⟩

/-- C7 (witness): over the reals with `Real.sqrt`, tangent `(1,0,0)` and up
vector `(0,1,0)`: the frame is `u = (1,0,0)`, `v = (0,1,0)`, `w = (0,0,1)`. -/
theorem drawStuff_frame_orthonormal_witness :
    drawStuff_frame Real.sqrt ⟨1, 0, 0⟩ ⟨0, 1, 0⟩ = (⟨1, 0, 0⟩, ⟨0, 1, 0⟩, ⟨0, 0, 1⟩) ∧
    ((drawStuff_frame Real.sqrt ⟨1, 0, 0⟩ ⟨0, 1, 0⟩).1 = ⟨1, 0, 0⟩ ∧
    (∃ l : ℝ, 0 < l ∧
      l * l = Pnt3f.dot (Pnt3f.cross ⟨1, 0, 0⟩ ⟨0, 1, 0⟩) (Pnt3f.cross ⟨1, 0, 0⟩ ⟨0, 1, 0⟩) ∧
      Pnt3f.scale (drawStuff_frame Real.sqrt ⟨1, 0, 0⟩ ⟨0, 1, 0⟩).2.2 l
        = Pnt3f.cross ⟨1, 0, 0⟩ ⟨0, 1, 0⟩) ∧
    (drawStuff_frame Real.sqrt ⟨1, 0, 0⟩ ⟨0, 1, 0⟩).2.1 =
      Pnt3f.cross (drawStuff_frame Real.sqrt ⟨1, 0, 0⟩ ⟨0, 1, 0⟩).2.2 ⟨1, 0, 0⟩ ∧
    Pnt3f.dot (drawStuff_frame Real.sqrt ⟨1, 0, 0⟩ ⟨0, 1, 0⟩).1
      (drawStuff_frame Real.sqrt ⟨1, 0, 0⟩ ⟨0, 1, 0⟩).1 = 1 ∧
    Pnt3f.dot (drawStuff_frame Real.sqrt ⟨1, 0, 0⟩ ⟨0, 1, 0⟩).2.1
      (drawStuff_frame Real.sqrt ⟨1, 0, 0⟩ ⟨0, 1, 0⟩).2.1 = 1 ∧
    Pnt3f.dot (drawStuff_frame Real.sqrt ⟨1, 0, 0⟩ ⟨0, 1, 0⟩).2.2
      (drawStuff_frame Real.sqrt ⟨1, 0, 0⟩ ⟨0, 1, 0⟩).2.2 = 1 ∧
    Pnt3f.dot (drawStuff_frame Real.sqrt ⟨1, 0, 0⟩ ⟨0, 1, 0⟩).1
      (drawStuff_frame Real.sqrt ⟨1, 0, 0⟩ ⟨0, 1, 0⟩).2.1 = 0 ∧
    Pnt3f.dot (drawStuff_frame Real.sqrt ⟨1, 0, 0⟩ ⟨0, 1, 0⟩).1
      (drawStuff_frame Real.sqrt ⟨1, 0, 0⟩ ⟨0, 1, 0⟩).2.2 = 0 ∧
    Pnt3f.dot (drawStuff_frame Real.sqrt ⟨1, 0, 0⟩ ⟨0, 1, 0⟩).2.1
      (drawStuff_frame Real.sqrt ⟨1, 0, 0⟩ ⟨0, 1, 0⟩).2.2 = 0 ∧
    Pnt3f.cross (drawStuff_frame Real.sqrt ⟨1, 0, 0⟩ ⟨0, 1, 0⟩).1
      (drawStuff_frame Real.sqrt ⟨1, 0, 0⟩ ⟨0, 1, 0⟩).2.1 =
      (drawStuff_frame Real.sqrt ⟨1, 0, 0⟩ ⟨0, 1, 0⟩).2.2) :=
  ⟨by simp [drawStuff_frame, Pnt3f.normalize, Pnt3f.cross],
   drawStuff_frame_orthonormal Real.sqrt ⟨1, 0, 0⟩ ⟨0, 1, 0⟩
    (fun x hx => ⟨Real.sqrt_nonneg x, Real.mul_self_sqrt hx⟩)
    (by simp [Pnt3f.dot]) (by simp [Pnt3f.cross, Pnt3f.zero])⟩


/-! ### C8 -/

/-- C8: over the reals, for every matrix `M`, window `G`, scale `r` and
parameter `f`, each component of `Matrix_Multiple(M, [3f^2, 2f, 1, 0], G, r)`
is the derivative at `f` of the same component of the position polynomial
`Matrix_Multiple(M, [f^3, f^2, f, 1], G, r)` (the vectors `T`, `DT` as
`getPnt3f` builds them). -/
theorem Matrix_Multiple_DT_is_derivative (M : Fin 4 → Fin 4 → ℝ) (G : Fin 4 → Pnt3f ℝ)
    (r f : ℝ) :
    HasDerivAt (fun t : ℝ => (Matrix_Multiple M ![t * t * t, t * t, t, 1] G r).x)
      (Matrix_Multiple M ![3 * f * f, 2 * f, 1, 0] G r).x f ∧
    HasDerivAt (fun t : ℝ => (Matrix_Multiple M ![t * t * t, t * t, t, 1] G r).y)
      (Matrix_Multiple M ![3 * f * f, 2 * f, 1, 0] G r).y f ∧
    HasDerivAt (fun t : ℝ => (Matrix_Multiple M ![t * t * t, t * t, t, 1] G r).z)
      (Matrix_Multiple M ![3 * f * f, 2 * f, 1, 0] G r).z f := by
  refine ⟨?_, ?_, ?_⟩
  · convert hasDerivAt_cubic
      (r * ∑ k : Fin 4, (G k).x * M k 0) (r * ∑ k : Fin 4, (G k).x * M k 1)
      (r * ∑ k : Fin 4, (G k).x * M k 2) (r * ∑ k : Fin 4, (G k).x * M k 3) f using 1
    · funext t
      simp [Matrix_Multiple_eq_comp, Fin.sum_univ_four]; ring
    · simp [Matrix_Multiple_eq_comp, Fin.sum_univ_four]; ring
  · convert hasDerivAt_cubic
      (r * ∑ k : Fin 4, (G k).y * M k 0) (r * ∑ k : Fin 4, (G k).y * M k 1)
      (r * ∑ k : Fin 4, (G k).y * M k 2) (r * ∑ k : Fin 4, (G k).y * M k 3) f using 1
    · funext t
      simp [Matrix_Multiple_eq_comp, Fin.sum_univ_four]; ring
    · simp [Matrix_Multiple_eq_comp, Fin.sum_univ_four]; ring
  · convert hasDerivAt_cubic
      (r * ∑ k : Fin 4, (G k).z * M k 0) (r * ∑ k : Fin 4, (G k).z * M k 1)
      (r * ∑ k : Fin 4, (G k).z * M k 2) (r * ∑ k : Fin 4, (G k).z * M k 3) f using 1
    · funext t
      simp [Matrix_Multiple_eq_comp, Fin.sum_univ_four]; ring
    · simp [Matrix_Multiple_eq_comp, Fin.sum_univ_four]; ring

/-! ### C9 -/

/-- C9: a drag event (not taken by the arcball) with `selectedCube` negative or
a valid index returns a state in which the control-point sequence has the same
length, every orientation is unchanged, every point other than the selected
one is unchanged (position included), `selectedCube` is unchanged, and, when
`selectedCube` is negative, the whole sequence is unchanged. -/
theorem handle_drag_frame {K : Type} (inp : Inputs K) (s : ViewState K)
    (hsel : s.selectedCube < (s.points.length : Int)) :
    ∃ s', handle inp Event.FL_DRAG s = some s' ∧
      s'.points.length = s.points.length ∧
      (∀ j : Nat, (s'.points.get? j).map ControlPoint.orient
        = (s.points.get? j).map ControlPoint.orient) ∧
      (∀ j : Nat, (j : Int) ≠ s.selectedCube → s'.points.get? j = s.points.get? j) ∧
      s'.selectedCube = s.selectedCube ∧
      (s.selectedCube < 0 → s'.points = s.points) := by
  unfold handle
  by_cases ha : inp.arcballHandles = true
  · simp [ha]
  · by_cases hc : s.last_push = FL_LEFT_MOUSE ∧ s.selectedCube ≥ 0
    · have hlt : s.selectedCube.toNat < s.points.length := by omega
      have hget : s.points.get? s.selectedCube.toNat = some (s.points.get ⟨_, hlt⟩) :=
        List.get?_eq_get hlt
      simp only [ha, hc, hget]
      refine ⟨_, rfl, ?_, ?_, ?_, rfl, ?_⟩
      · simp
      · intro j
        by_cases hj : s.selectedCube.toNat = j
        · subst hj
          simp [List.getElem?_set, hlt]
        · simp [List.getElem?_set, hj]
      · intro j hj
        have hj' : s.selectedCube.toNat ≠ j := by omega
        simp [List.getElem?_set, hj']
      · intro hneg; omega
    · simp only [ha, hc]
      exact ⟨s, by simp, rfl, fun _ => rfl, fun _ _ => rfl, rfl, fun _ => rfl⟩

/-- C9 (witness): dragging point 1 of the square track, and dragging with
nothing selected (`selectedCube = -1`). -/
theorem handle_drag_frame_witness :
    (∃ s', handle ⟨false, 1, 0, fun _ => 0, fun _ => ⟨7, 7, 7⟩⟩ Event.FL_DRAG
        (⟨1, 1, squareTrack⟩ : ViewState ℚ) = some s' ∧
      s'.points.length = squareTrack.length ∧
      (∀ j : Nat, (s'.points.get? j).map ControlPoint.orient
        = (squareTrack.get? j).map ControlPoint.orient) ∧
      (∀ j : Nat, (j : Int) ≠ 1 → s'.points.get? j = squareTrack.get? j) ∧
      s'.selectedCube = 1 ∧
      ((1 : Int) < 0 → s'.points = squareTrack)) ∧
    (∃ s', handle ⟨false, 1, 0, fun _ => 0, fun _ => ⟨7, 7, 7⟩⟩ Event.FL_DRAG
        (⟨1, -1, squareTrack⟩ : ViewState ℚ) = some s' ∧
      s'.points.length = squareTrack.length ∧
      (∀ j : Nat, (s'.points.get? j).map ControlPoint.orient
        = (squareTrack.get? j).map ControlPoint.orient) ∧
      (∀ j : Nat, (j : Int) ≠ -1 → s'.points.get? j = squareTrack.get? j) ∧
      s'.selectedCube = -1 ∧
      ((-1 : Int) < 0 → s'.points = squareTrack)) :=
  ⟨handle_drag_frame ⟨false, 1, 0, fun _ => 0, fun _ => ⟨7, 7, 7⟩⟩ ⟨1, 1, squareTrack⟩
      (by decide),
   handle_drag_frame ⟨false, 1, 0, fun _ => 0, fun _ => ⟨7, 7, 7⟩⟩ ⟨1, -1, squareTrack⟩
      (by decide)⟩

/-! ### C10 -/

/-- C10 (counterexample): with two overlapping hits, name 1 at depth 900 first
and name 2 at depth 100 second, `doPick` selects index 0, the first record,
while the hit nearest the camera is index 1. -/
theorem doPick_first_not_nearest :
    doPick 2 twoHits = 0 ∧ pickNearest 2 twoHits = 1 := by
  constructor
  · simp [doPick, twoHits]
  · simp [pickNearest, nearestRecord, twoHits]

/-- C10 (amended): when the first hit record carries a name that `doPick`
loaded (`1 <= buf[3] <= 2^31`), the selected index is `-1` exactly when the
hit count is zero; otherwise it is `buf[3] - 1`, the 0-based index of the first
hit record of the selection buffer, whatever the depths of the hits. -/
theorem doPick_first_hit (hits : Int) (buf : Nat → Nat)
    (hname : 1 ≤ buf 3 ∧ buf 3 ≤ 2 ^ 31) :
    (doPick hits buf = -1 ↔ hits = 0) ∧
    (hits ≠ 0 → doPick hits buf = (buf 3 : Int) - 1) := by
  obtain ⟨h1, h2⟩ := hname
  have hu : (buf 3 % 2 ^ 32 + (2 ^ 32 - 1)) % 2 ^ 32 = buf 3 - 1 := by
    norm_num at h2 ⊢
    omega
  have hlt : buf 3 - 1 < 2 ^ 31 := by norm_num at h2 ⊢; omega
  have hval : hits ≠ 0 → doPick hits buf = (buf 3 : Int) - 1 := by
    intro h
    simp only [doPick, if_pos h, hu, if_pos hlt]
    omega
  refine ⟨⟨fun h => ?_, fun h => ?_⟩, hval⟩
  · by_contra hne
    rw [hval hne] at h
    omega
  · simp [doPick, h]

/-- C10 (witness): the two-record buffer, with two hits and with none. -/
theorem doPick_first_hit_witness :
    ((doPick 2 twoHits = -1 ↔ (2 : Int) = 0) ∧
      ((2 : Int) ≠ 0 → doPick 2 twoHits = (twoHits 3 : Int) - 1)) ∧
    ((doPick 0 twoHits = -1 ↔ (0 : Int) = 0) ∧
      ((0 : Int) ≠ 0 → doPick 0 twoHits = (twoHits 3 : Int) - 1)) :=
  ⟨doPick_first_hit 2 twoHits (by simp [twoHits]),
   doPick_first_hit 0 twoHits (by simp [twoHits])⟩

/-! ### C11 -/

/-- C11: in both spline modes, for every track, every segment index `i < N`
and every `t` with `i <= t < i + 1` (so `t` in `[0, N)`, `i = floor t`,
`f = t - i`): the state met by iteration `j` of the loop passes the segment
test exactly when `j = i` (one segment is evaluated although the loop has no
`break`), and the returned position and tangent are the blends of the window
`(P[(i-1) mod N], P[i], P[(i+1) mod N], P[(i+2) mod N])`, the `i == 0` special
case being the modular index. -/
theorem getPnt3f_spline_window {K : Type} [LinearOrderedField K] (sqrt : K → K)
    (fsub : K → K → K) (selected : Nat → Bool) (points : List (ControlPoint K))
    (t : K) (out : Sample K) (i : Nat)
    (hs1 : selected 1 = false) (hi : i < points.length)
    (h0 : (i : K) ≤ t) (h1 : t < (i : K) + 1) (fuel : Nat) (hfuel : 1 ≤ fuel) :
    (selected 2 = true →
      (∀ j : Nat, j < points.length →
        (((j : K) ≤ (splineLoop (cardinalStep sqrt points) j 0 (t, out)).1 ∧
          (splineLoop (cardinalStep sqrt points) j 0 (t, out)).1 < ((j + 1 : Nat) : K)) ↔ j = i)) ∧
      ∃ s, getPnt3f sqrt fsub selected points fuel t out = some s ∧
        s.pos = Matrix_Multiple M_matrix_cardinal
          ![(t - (i : K)) * (t - (i : K)) * (t - (i : K)), (t - (i : K)) * (t - (i : K)),
            t - (i : K), 1]
          ![(pointAt points ((i + points.length - 1) % points.length)).pos,
            (pointAt points i).pos, (pointAt points ((i + 1) % points.length)).pos,
            (pointAt points ((i + 2) % points.length)).pos] (1 / 2) ∧
        s.dir = Pnt3f.normalize sqrt (Matrix_Multiple M_matrix_cardinal
          ![3 * (t - (i : K)) * (t - (i : K)), 2 * (t - (i : K)), 1, 0]
          ![(pointAt points ((i + points.length - 1) % points.length)).pos,
            (pointAt points i).pos, (pointAt points ((i + 1) % points.length)).pos,
            (pointAt points ((i + 2) % points.length)).pos] (1 / 2))) ∧
    (selected 2 = false → selected 3 = true →
      (∀ j : Nat, j < points.length →
        (((j : K) ≤ (splineLoop (bsplineStep sqrt points) j 0 (t, out)).1 ∧
          (splineLoop (bsplineStep sqrt points) j 0 (t, out)).1 < ((j + 1 : Nat) : K)) ↔ j = i)) ∧
      ∃ s, getPnt3f sqrt fsub selected points fuel t out = some s ∧
        s.pos = Matrix_Multiple M_matrix_bspline
          ![(t - (i : K)) * (t - (i : K)) * (t - (i : K)), (t - (i : K)) * (t - (i : K)),
            t - (i : K), 1]
          ![(pointAt points ((i + points.length - 1) % points.length)).pos,
            (pointAt points i).pos, (pointAt points ((i + 1) % points.length)).pos,
            (pointAt points ((i + 2) % points.length)).pos] (1 / 6) ∧
        s.dir = Pnt3f.normalize sqrt (Matrix_Multiple M_matrix_bspline
          ![3 * (t - (i : K)) * (t - (i : K)), 2 * (t - (i : K)), 1, 0]
          ![(pointAt points ((i + points.length - 1) % points.length)).pos,
            (pointAt points i).pos, (pointAt points ((i + 1) % points.length)).pos,
            (pointAt points ((i + 2) % points.length)).pos] (1 / 6))) := by
  have hc : (i : K) ≤ ((t, out) : K × Sample K).1 ∧
      ((t, out) : K × Sample K).1 < ((i + 1 : Nat) : K) := by
    refine ⟨h0, ?_⟩
    push_cast; exact h1
  constructor
  · intro hs2
    refine ⟨fun j _ => splineLoop_match_iff (cardinalStep sqrt points)
      (cardinalStep_miss sqrt points) (cardinalStep_fst sqrt points) (t, out) i h0 h1 j, ?_⟩
    refine ⟨(cardinalStep sqrt points i (t, out)).2,
      getPnt3f_cardinal_eq sqrt fsub selected points t out i hs1 hs2 hi h0 h1 fuel hfuel, ?_, ?_⟩
    · rw [cardinalStep_hit sqrt points i (t, out) hi hc]
    · rw [cardinalStep_hit sqrt points i (t, out) hi hc]
  · intro hs2 hs3
    refine ⟨fun j _ => splineLoop_match_iff (bsplineStep sqrt points)
      (bsplineStep_miss sqrt points) (bsplineStep_fst sqrt points) (t, out) i h0 h1 j, ?_⟩
    refine ⟨(bsplineStep sqrt points i (t, out)).2,
      getPnt3f_bspline_eq sqrt fsub selected points t out i hs1 hs2 hs3 hi h0 h1 fuel hfuel, ?_, ?_⟩
    · rw [bsplineStep_hit sqrt points i (t, out) hi hc]
    · rw [bsplineStep_hit sqrt points i (t, out) hi hc]

/-- C11 (witness): the square track at `t = 7/2` (segment 3, whose window wraps
to `P[0]`, `P[1]`): position `(-5/4, 0, 5)` in Cardinal mode and `(5/12, 0, 5)`
in B-spline mode. -/
theorem getPnt3f_spline_window_witness :
    (∃ s, getPnt3f Rat.sqrt f32sub (selectedLine 2) squareTrack 1 (7 / 2) zeroSample = some s ∧
      s.pos = ⟨-5 / 4, 0, 5⟩) ∧
    (∃ s, getPnt3f Rat.sqrt f32sub (selectedLine 3) squareTrack 1 (7 / 2) zeroSample = some s ∧
      s.pos = ⟨5 / 12, 0, 5⟩) := by
  constructor
  · obtain ⟨-, s, hs, hp, -⟩ := (getPnt3f_spline_window Rat.sqrt f32sub (selectedLine 2) squareTrack
      (7 / 2) zeroSample 3 rfl (by decide) (by norm_num) (by norm_num) 1 le_rfl).1 rfl
    refine ⟨s, hs, ?_⟩
    rw [hp, Matrix_Multiple_eq_comp]
    simp [M_matrix_cardinal, squareTrack, pointAt, Fin.sum_univ_four, Matrix.vecHead,
      Matrix.vecTail]
    norm_num
  · obtain ⟨-, s, hs, hp, -⟩ := (getPnt3f_spline_window Rat.sqrt f32sub (selectedLine 3) squareTrack
      (7 / 2) zeroSample 3 rfl (by decide) (by norm_num) (by norm_num) 1 le_rfl).2 rfl rfl
    refine ⟨s, hs, ?_⟩
    rw [hp, Matrix_Multiple_eq_comp]
    simp [M_matrix_bspline, squareTrack, pointAt, Fin.sum_univ_four, Matrix.vecHead,
      Matrix.vecTail]
    norm_num

/-! ### C12 -/

/-- C12: for every track, every segment index `i < N` and every `t` with
`i <= t < i + 1` (`f = t - i`), the returned up vector is the normalised
`Matrix_Multiple` blend, with the matrix, the vector `T = [f^3, f^2, f, 1]`
and the scale of the position, of the orientation window
`(O[i], O[(i+1) mod N], O[(i+2) mod N], O[(i+3) mod N])` in Cardinal mode and
of `(O[(i-1) mod N], O[(i+1) mod N], O[(i+2) mod N], O[(i+3) mod N])` in cubic
B-spline mode. -/
theorem getPnt3f_spline_up {K : Type} [LinearOrderedField K] (sqrt : K → K)
    (fsub : K → K → K) (selected : Nat → Bool) (points : List (ControlPoint K))
    (t : K) (out : Sample K) (i : Nat)
    (hs1 : selected 1 = false) (hi : i < points.length)
    (h0 : (i : K) ≤ t) (h1 : t < (i : K) + 1) (fuel : Nat) (hfuel : 1 ≤ fuel) :
    (selected 2 = true →
      ∃ s, getPnt3f sqrt fsub selected points fuel t out = some s ∧
        s.up = Pnt3f.normalize sqrt (Matrix_Multiple M_matrix_cardinal
          ![(t - (i : K)) * (t - (i : K)) * (t - (i : K)), (t - (i : K)) * (t - (i : K)),
            t - (i : K), 1]
          ![(pointAt points i).orient, (pointAt points ((i + 1) % points.length)).orient,
            (pointAt points ((i + 2) % points.length)).orient,
            (pointAt points ((i + 3) % points.length)).orient] (1 / 2)) ∧
        s.pos = Matrix_Multiple M_matrix_cardinal
          ![(t - (i : K)) * (t - (i : K)) * (t - (i : K)), (t - (i : K)) * (t - (i : K)),
            t - (i : K), 1]
          ![(pointAt points ((i + points.length - 1) % points.length)).pos,
            (pointAt points i).pos, (pointAt points ((i + 1) % points.length)).pos,
            (pointAt points ((i + 2) % points.length)).pos] (1 / 2)) ∧
    (selected 2 = false → selected 3 = true →
      ∃ s, getPnt3f sqrt fsub selected points fuel t out = some s ∧
        s.up = Pnt3f.normalize sqrt (Matrix_Multiple M_matrix_bspline
          ![(t - (i : K)) * (t - (i : K)) * (t - (i : K)), (t - (i : K)) * (t - (i : K)),
            t - (i : K), 1]
          ![(pointAt points ((i + points.length - 1) % points.length)).orient,
            (pointAt points ((i + 1) % points.length)).orient,
            (pointAt points ((i + 2) % points.length)).orient,
            (pointAt points ((i + 3) % points.length)).orient] (1 / 6)) ∧
        s.pos = Matrix_Multiple M_matrix_bspline
          ![(t - (i : K)) * (t - (i : K)) * (t - (i : K)), (t - (i : K)) * (t - (i : K)),
            t - (i : K), 1]
          ![(pointAt points ((i + points.length - 1) % points.length)).pos,
            (pointAt points i).pos, (pointAt points ((i + 1) % points.length)).pos,
            (pointAt points ((i + 2) % points.length)).pos] (1 / 6)) := by
  have hc : (i : K) ≤ ((t, out) : K × Sample K).1 ∧
      ((t, out) : K × Sample K).1 < ((i + 1 : Nat) : K) := by
    refine ⟨h0, ?_⟩
    push_cast; exact h1
  constructor
  · intro hs2
    refine ⟨(cardinalStep sqrt points i (t, out)).2,
      getPnt3f_cardinal_eq sqrt fsub selected points t out i hs1 hs2 hi h0 h1 fuel hfuel, ?_, ?_⟩
    · rw [cardinalStep_hit sqrt points i (t, out) hi hc]
    · rw [cardinalStep_hit sqrt points i (t, out) hi hc]
  · intro hs2 hs3
    refine ⟨(bsplineStep sqrt points i (t, out)).2,
      getPnt3f_bspline_eq sqrt fsub selected points t out i hs1 hs2 hs3 hi h0 h1 fuel hfuel, ?_, ?_⟩
    · rw [bsplineStep_hit sqrt points i (t, out) hi hc]
    · rw [bsplineStep_hit sqrt points i (t, out) hi hc]

/-- C12 (witness): on the square track every orientation is `(0,1,0)`; at
`t = 1/2` the Cardinal blend of the orientation window is `(0,1,0)`, of length
1, so the up vector is `(0,1,0)`; likewise in B-spline mode. -/
theorem getPnt3f_spline_up_witness :
    (∃ s, getPnt3f Rat.sqrt f32sub (selectedLine 2) squareTrack 1 (1 / 2) zeroSample = some s ∧
      s.up = ⟨0, 1, 0⟩) ∧
    (∃ s, getPnt3f Rat.sqrt f32sub (selectedLine 3) squareTrack 1 (1 / 2) zeroSample = some s ∧
      s.up = ⟨0, 1, 0⟩) := by
  constructor
  · obtain ⟨s, hs, hu, -⟩ := (getPnt3f_spline_up Rat.sqrt f32sub (selectedLine 2) squareTrack
      (1 / 2) zeroSample 0 rfl (by decide) (by norm_num) (by norm_num) 1 le_rfl).1 rfl
    refine ⟨s, hs, ?_⟩
    rw [hu, Matrix_Multiple_eq_comp]
    simp [M_matrix_cardinal, squareTrack, pointAt, Fin.sum_univ_four, Matrix.vecHead,
      Matrix.vecTail, Pnt3f.normalize]
    norm_num [sqrt_one_rat]
  · obtain ⟨s, hs, hu, -⟩ := (getPnt3f_spline_up Rat.sqrt f32sub (selectedLine 3) squareTrack
      (1 / 2) zeroSample 0 rfl (by decide) (by norm_num) (by norm_num) 1 le_rfl).2 rfl rfl
    refine ⟨s, hs, ?_⟩
    rw [hu, Matrix_Multiple_eq_comp]
    simp [M_matrix_bspline, squareTrack, pointAt, Fin.sum_univ_four, Matrix.vecHead,
      Matrix.vecTail, Pnt3f.normalize]
    norm_num [sqrt_one_rat]

/-! ### C13 -/

/-- C13: in Cardinal mode, for every track and every segment `i < N`:
`getPnt3f` at `t = i + f` with `0 <= f < 1` returns the position polynomial
`cardinalPos points i f`; that polynomial is `P[i]` at `f = 0` and
`P[(i+1) mod N]` at `f = 1`; and its value at `f = 1` is the value of the
polynomial of segment `(i+1) mod N` at `f = 0` (for `i = N - 1` this is the
seam back to segment 0). -/
theorem cardinalPos_interpolates {K : Type} [LinearOrderedField K] (sqrt : K → K)
    (fsub : K → K → K) (selected : Nat → Bool) (points : List (ControlPoint K))
    (out : Sample K) (i : Nat)
    (hs1 : selected 1 = false) (hs2 : selected 2 = true) (hi : i < points.length) :
    (∀ f : K, 0 ≤ f → f < 1 → ∀ fuel : Nat, 1 ≤ fuel →
      ∃ s, getPnt3f sqrt fsub selected points fuel ((i : K) + f) out = some s ∧
        s.pos = cardinalPos points i f) ∧
    cardinalPos points i 0 = (pointAt points i).pos ∧
    cardinalPos points i 1 = (pointAt points ((i + 1) % points.length)).pos ∧
    cardinalPos points i 1 = cardinalPos points ((i + 1) % points.length) 0 := by
  have hzero : ∀ j : Nat, j < points.length →
      cardinalPos points j (0 : K) = (pointAt points j).pos := by
    intro j hj
    simp only [cardinalPos, cardinal_blend_zero, Nat.mod_eq_of_lt hj]
    rfl
  have hone : cardinalPos points i (1 : K) = (pointAt points ((i + 1) % points.length)).pos := by
    simp only [cardinalPos, cardinal_blend_one]
    rfl
  have hnext : (i + 1) % points.length < points.length := Nat.mod_lt _ (by omega)
  refine ⟨?_, hzero i hi, hone, ?_⟩
  · intro f hf0 hf1 fuel hfuel
    have h0 : (i : K) ≤ (i : K) + f := by linarith
    have h1 : (i : K) + f < (i : K) + 1 := by linarith
    have hc : (i : K) ≤ (((i : K) + f, out) : K × Sample K).1 ∧
        (((i : K) + f, out) : K × Sample K).1 < ((i + 1 : Nat) : K) := by
      refine ⟨h0, ?_⟩
      push_cast; exact h1
    refine ⟨(cardinalStep sqrt points i ((i : K) + f, out)).2,
      getPnt3f_cardinal_eq sqrt fsub selected points _ out i hs1 hs2 hi h0 h1 fuel hfuel, ?_⟩
    rw [cardinalStep, if_pos hc]
    simp only [cardinalPos, add_sub_cancel_left]
  · rw [hone, hzero _ hnext]

/-- C13 (witness): the last segment (`i = 3`) of the square track in Cardinal
mode: it starts at `P[3] = (0,0,10)` and ends at `P[0] = (0,0,0)`, where
segment 0 starts. -/
theorem cardinalPos_interpolates_witness :
    (∀ f : ℚ, 0 ≤ f → f < 1 → ∀ fuel : Nat, 1 ≤ fuel →
      ∃ s, getPnt3f Rat.sqrt f32sub (selectedLine 2) squareTrack fuel (((3 : Nat) : ℚ) + f) zeroSample
          = some s ∧ s.pos = cardinalPos squareTrack 3 f) ∧
    cardinalPos squareTrack 3 0 = ⟨0, 0, 10⟩ ∧
    cardinalPos squareTrack 3 1 = ⟨0, 0, 0⟩ ∧
    cardinalPos squareTrack 3 1 = cardinalPos squareTrack 0 0 :=
  cardinalPos_interpolates Rat.sqrt f32sub (selectedLine 2) squareTrack zeroSample 3 rfl rfl (by decide)

end RollerCoasters
